import Mathlib

/-!
# Verification of the llm-json recovery pipeline

Shallow embedding of the `llm-json` TypeScript library: balanced-bracket
extraction (`extract.ts`), quote-aware repair (`repair.ts`), truncation-tolerant
parsing (`partial.ts`), the streaming session (`streaming.ts`) and the
top-level `parse` (`index.ts`).  Strings are embedded as `List Char`; the
JavaScript builtin `JSON.parse` is modelled by the strict parser `jsonParse`
below; thrown JavaScript exceptions are modelled with `Except`, caught at the
same places the source catches them.
-/

namespace LlmJson

abbrev Chars := List Char

/-- The apostrophe character. -/
def squoteC : Char := Char.ofNat 39

/-- The backtick character. -/
def btickC : Char := Char.ofNat 96

/-- Model of the JavaScript `\s` character class (ASCII part) as used by
`/\s/.test` and `String.prototype.trim` in the source; exotic Unicode
whitespace is not modelled. -/
def isWs (c : Char) : Bool :=
  c = ' ' || c = '\t' || c = '\n' || c = '\r' || c.toNat = 11 || c.toNat = 12

/-- Insignificant whitespace of strict JSON (RFC 8259), as accepted by
`JSON.parse`. -/
def isJsonWs (c : Char) : Bool :=
  c = ' ' || c = '\t' || c = '\n' || c = '\r'

def isDigitC (c : Char) : Bool := 48 ≤ c.toNat && c.toNat ≤ 57

/-- The JavaScript `[\w$_]` class from `repair.ts`. -/
def isWordC (c : Char) : Bool :=
  (65 ≤ c.toNat && c.toNat ≤ 90) || (97 ≤ c.toNat && c.toNat ≤ 122) ||
    isDigitC c || c = '_' || c = '$'

/-! ## The data model (`types.ts`) -/

/-- A JavaScript value produced by parsing JSON-like text.  Numbers are
modelled exactly as rationals (no float rounding); `nanNum` models the
JavaScript `NaN` that `parseFloat` can produce in `partial.ts`.  Objects are
ordered member lists (insertion order). -/
inductive JsonValue where
  | null
  | bool (b : Bool)
  | num (q : ℚ)
  | nanNum
  | str (s : Chars)
  | arr (elems : List JsonValue)
  | obj (members : List (Chars × JsonValue))

mutual

/-- Boolean structural equality on values (decidable equality is derived from
it below; the automatic derivation does not handle the nested induction). -/
def beqJ : JsonValue → JsonValue → Bool
  | .null, .null => true
  | .bool a, .bool b => a = b
  | .num p, .num q => p = q
  | .nanNum, .nanNum => true
  | .str s, .str t => s = t
  | .arr xs, .arr ys => beqElems xs ys
  | .obj ms, .obj ns => beqMembers ms ns
  | _, _ => false

def beqElems : List JsonValue → List JsonValue → Bool
  | [], [] => true
  | x :: xs, y :: ys => beqJ x y && beqElems xs ys
  | _, _ => false

def beqMembers : List (Chars × JsonValue) → List (Chars × JsonValue) → Bool
  | [], [] => true
  | (k, v) :: ms, (l, w) :: ns => k = l && beqJ v w && beqMembers ms ns
  | _, _ => false

end

mutual

theorem beqJ_iff : ∀ a b : JsonValue, beqJ a b = true ↔ a = b
  | .null, b => by cases b <;> simp [beqJ]
  | .bool a, b => by cases b <;> simp [beqJ]
  | .num p, b => by cases b <;> simp [beqJ]
  | .nanNum, b => by cases b <;> simp [beqJ]
  | .str s, b => by cases b <;> simp [beqJ]
  | .arr xs, b => by
    cases b <;> simp [beqJ]
    exact beqElems_iff xs _
  | .obj ms, b => by
    cases b <;> simp [beqJ]
    exact beqMembers_iff ms _

theorem beqElems_iff : ∀ xs ys : List JsonValue, beqElems xs ys = true ↔ xs = ys
  | [], ys => by cases ys <;> simp [beqElems]
  | x :: xs, ys => by
    cases ys with
    | nil => simp [beqElems]
    | cons y ys => simp [beqElems, beqJ_iff x y, beqElems_iff xs ys]

theorem beqMembers_iff :
    ∀ ms ns : List (Chars × JsonValue), beqMembers ms ns = true ↔ ms = ns
  | [], ns => by cases ns <;> simp [beqMembers]
  | (k, v) :: ms, ns => by
    cases ns with
    | nil => simp [beqMembers]
    | cons n ns =>
      obtain ⟨l, w⟩ := n
      simp [beqMembers, beqJ_iff v w, beqMembers_iff ms ns, and_assoc]

end

instance : DecidableEq JsonValue := fun a b => decidable_of_iff _ (beqJ_iff a b)

/-- `WarningCode` from `types.ts`. -/
inductive WarningCode where
  | trailing_comma_removed
  | single_quotes_replaced
  | unquoted_key_fixed
  | missing_comma_added
  | markdown_fence_stripped
  | prose_stripped
  | python_literal_converted
  | truncated_string_closed
  | unescaped_quote_fixed
deriving DecidableEq

/-- `Warning` from `types.ts`.  The optional `position` field is never set by
the source, so it is not modelled. -/
structure Warning where
  code : WarningCode
  message : Chars
deriving DecidableEq

/-- `ErrorCode` from `types.ts`. -/
inductive ErrorCode where
  | no_json_found
  | invalid_json
  | schema_mismatch
  | truncated
  | type_error
  | missing_required
deriving DecidableEq

/-- `ParseError` from `types.ts`.  The optional `position`/`context` fields are
never set on the no-schema paths modelled here. -/
structure ParseError where
  code : ErrorCode
  message : Chars
deriving DecidableEq

inductive Confidence where
  | high
  | medium
  | low
deriving DecidableEq

/-- `PartialResult` from `types.ts`; the source only ever builds the fixed
placeholder `{confidence:'medium', complete:{}, pending:[]}`. -/
structure PartialResult where
  confidence : Confidence
  complete : JsonValue
  pending : List Chars

/-- `Result<T>` from `types.ts`: the tagged outcome every public operation
returns.  `success d none` models a `Success` with no `warnings` field. -/
inductive Result where
  | success (data : JsonValue) (warnings : Option (List Warning))
  | failure (error : ParseError) (partialInfo : Option PartialResult)

/-- `ExtractResult` from `types.ts` (`end` is a Lean keyword, renamed `stop`). -/
structure ExtractResult where
  json : Option Chars
  start : Nat
  stop : Nat
  multiple : Option (List Chars)

/-- `RepairResult` from `types.ts`. -/
structure RepairResult where
  output : Chars
  warnings : List Warning
  valid : Bool

/-- `PartialParseOptions` from `types.ts` (each field optional; merged with
defaults by `parsePartial`).  The unused `onIncompleteString` callback is not
modelled. -/
structure PartialParseOptions where
  allowPartialStrings : Option Bool
  allowPartialObjects : Option Bool
  allowPartialArrays : Option Bool
  allowPartialNumbers : Option Bool

deriving instance DecidableEq for Except

deriving instance DecidableEq for PartialResult

deriving instance DecidableEq for Result

deriving instance DecidableEq for ExtractResult

deriving instance DecidableEq for RepairResult

/-! ## Model of the JavaScript builtin `JSON.parse`

A strict RFC 8259 parser.  Structural on a fuel counter so that totality and
kernel evaluation are immediate; the public wrapper supplies ample fuel. -/

/-- JavaScript object property assignment `obj[key] = v`: overwrites the
value at an existing key in place, otherwise appends. -/
def assignMember : List (Chars × JsonValue) → Chars → JsonValue → List (Chars × JsonValue)
  | [], k, v => [(k, v)]
  | (k0, v0) :: ms, k, v =>
    if k0 = k then (k0, v) :: ms else (k0, v0) :: assignMember ms k v

def digitsToNat (ds : Chars) : Nat :=
  ds.foldl (fun a c => a * 10 + (c.toNat - 48)) 0

def hexVal (c : Char) : Option Nat :=
  if 48 ≤ c.toNat && c.toNat ≤ 57 then some (c.toNat - 48)
  else if 97 ≤ c.toNat && c.toNat ≤ 102 then some (c.toNat - 87)
  else if 65 ≤ c.toNat && c.toNat ≤ 70 then some (c.toNat - 55)
  else none

/-- String body parser of the `JSON.parse` model: input starts after the
opening quote; returns the decoded content and the rest after the closing
quote. -/
def jpStr : Chars → Except Chars (Chars × Chars)
  | [] => .error "Unterminated string in JSON".data
  | c :: rest =>
    if c = '"' then .ok ([], rest)
    else if c = '\\' then
      match rest with
      | [] => .error "Bad escape in JSON".data
      | e :: rest2 =>
        if e = 'u' then
          match rest2 with
          | h1 :: h2 :: h3 :: h4 :: rest3 =>
            match hexVal h1, hexVal h2, hexVal h3, hexVal h4 with
            | some a, some b, some cc, some d =>
              match jpStr rest3 with
              | .ok (t, r) => .ok (Char.ofNat (((a * 16 + b) * 16 + cc) * 16 + d) :: t, r)
              | .error err => .error err
            | _, _, _, _ => .error "Bad unicode escape in JSON".data
          | _ => .error "Bad unicode escape in JSON".data
        else
          match (if e = '"' then some '"'
                 else if e = '\\' then some '\\'
                 else if e = '/' then some '/'
                 else if e = 'b' then some (Char.ofNat 8)
                 else if e = 'f' then some (Char.ofNat 12)
                 else if e = 'n' then some '\n'
                 else if e = 'r' then some '\r'
                 else if e = 't' then some '\t'
                 else none) with
          | some ch =>
            match jpStr rest2 with
            | .ok (t, r) => .ok (ch :: t, r)
            | .error err => .error err
          | none => .error "Bad escape in JSON".data
    else if c.toNat < 32 then .error "Bad control character in JSON".data
    else
      match jpStr rest with
      | .ok (t, r) => .ok (c :: t, r)
      | .error err => .error err

/-- The exact rational `mant * 10 ^ exp10` (kernel-evaluable: built from
integer arithmetic and `mkRat` only). -/
def decimalQ (mant : Int) (exp10 : Int) : ℚ :=
  if 0 ≤ exp10 then mkRat (mant * (10 : Int) ^ exp10.toNat) 1
  else mkRat mant ((10 : Nat) ^ (-exp10).toNat)

/-- Number parser of the `JSON.parse` model (strict JSON grammar: no leading
zeros, no leading `+`, digits required around `.` and after `e`). -/
def jpNum (s : Chars) : Except Chars (JsonValue × Chars) :=
  let (neg, s1) : Bool × Chars :=
    match s with
    | c :: r => if c = '-' then (true, r) else (false, s)
    | [] => (false, s)
  let ipart := s1.takeWhile isDigitC
  let r1 := s1.dropWhile isDigitC
  if ipart = [] then .error "No digits in JSON number".data
  else if ipart.length > 1 && ipart.headI = '0' then
    .error "Leading zero in JSON number".data
  else
    let (fpart, r2) : Chars × Chars :=
      match r1 with
      | c :: r => if c = '.' then (r.takeWhile isDigitC, r.dropWhile isDigitC) else ([], r1)
      | [] => ([], r1)
    if r1 ≠ [] && r1.headI = '.' && fpart = [] then
      .error "Missing digits after decimal point in JSON number".data
    else
      let mant : Int :=
        (if neg then -1 else 1) * (digitsToNat (ipart ++ fpart) : Int)
      let hasExp : Bool :=
        match r2 with
        | c :: _ => c = 'e' || c = 'E'
        | [] => false
      if hasExp then
        let r3 := r2.tail
        let (esign, r4) : Int × Chars :=
          match r3 with
          | c :: r => if c = '-' then (-1, r) else if c = '+' then (1, r) else (1, r3)
          | [] => (1, r3)
        let epart := r4.takeWhile isDigitC
        let r5 := r4.dropWhile isDigitC
        if epart = [] then .error "Missing digits in JSON exponent".data
        else
          .ok (.num (decimalQ mant (esign * (digitsToNat epart : Int) - fpart.length)), r5)
      else
        .ok (.num (decimalQ mant (-(fpart.length : Int))), r2)

mutual

/-- Value parser of the `JSON.parse` model. -/
def jpValue : Nat → Chars → Except Chars (JsonValue × Chars)
  | 0, _ => .error "fuel".data
  | fuel + 1, s =>
    match s.dropWhile isJsonWs with
    | [] => .error "Unexpected end of JSON input".data
    | c :: rest =>
      if c = '{' then jpObj fuel rest
      else if c = '[' then jpArr fuel rest
      else if c = '"' then
        match jpStr rest with
        | .ok (t, r) => .ok (.str t, r)
        | .error e => .error e
      else if c = '-' || isDigitC c then jpNum (c :: rest)
      else if (c :: rest).take 4 = "true".data then .ok (.bool true, (c :: rest).drop 4)
      else if (c :: rest).take 5 = "false".data then .ok (.bool false, (c :: rest).drop 5)
      else if (c :: rest).take 4 = "null".data then .ok (.null, (c :: rest).drop 4)
      else .error "Unexpected token in JSON".data

/-- Object parser of the `JSON.parse` model; input starts after the `{`. -/
def jpObj : Nat → Chars → Except Chars (JsonValue × Chars)
  | 0, _ => .error "fuel".data
  | fuel + 1, s =>
    match s.dropWhile isJsonWs with
    | '}' :: r => .ok (.obj [], r)
    | t => match jpMembers fuel t with
           | .ok (ms, r) =>
             .ok (.obj (ms.foldl (fun acc kv => assignMember acc kv.1 kv.2) []), r)
           | .error e => .error e

/-- One-or-more object members of the `JSON.parse` model. -/
def jpMembers : Nat → Chars → Except Chars (List (Chars × JsonValue) × Chars)
  | 0, _ => .error "fuel".data
  | fuel + 1, s =>
    match s.dropWhile isJsonWs with
    | '"' :: afterQuote =>
      match jpStr afterQuote with
      | .error msg => .error msg
      | .ok (k, afterKey) =>
        match afterKey.dropWhile isJsonWs with
        | ':' :: afterColon =>
          match jpValue fuel afterColon with
          | .error msg => .error msg
          | .ok (val, afterVal) =>
            match afterVal.dropWhile isJsonWs with
            | '}' :: fin => .ok ([(k, val)], fin)
            | ',' :: afterComma =>
              match jpMembers fuel afterComma with
              | .error msg => .error msg
              | .ok (moreMs, fin) => .ok ((k, val) :: moreMs, fin)
            | _ => .error "Expected comma or brace in JSON object".data
        | _ => .error "Expected colon in JSON object".data
    | _ => .error "Expected string key in JSON object".data

/-- Array parser of the `JSON.parse` model; input starts after the `[`. -/
def jpArr : Nat → Chars → Except Chars (JsonValue × Chars)
  | 0, _ => .error "fuel".data
  | fuel + 1, s =>
    match s.dropWhile isJsonWs with
    | ']' :: r => .ok (.arr [], r)
    | t => match jpElems fuel t with
           | .ok (es, r) => .ok (.arr es, r)
           | .error e => .error e

/-- One-or-more array elements of the `JSON.parse` model. -/
def jpElems : Nat → Chars → Except Chars (List JsonValue × Chars)
  | 0, _ => .error "fuel".data
  | fuel + 1, s =>
    match jpValue fuel s with
    | .error msg => .error msg
    | .ok (val, afterVal) =>
      match afterVal.dropWhile isJsonWs with
      | ']' :: fin => .ok ([val], fin)
      | ',' :: afterComma =>
        match jpElems fuel afterComma with
        | .error msg => .error msg
        | .ok (moreVs, fin) => .ok (val :: moreVs, fin)
      | _ => .error "Expected comma or bracket in JSON array".data

end

/-- Model of the JavaScript builtin `JSON.parse`: a whole input string either
parses to a value (with nothing but whitespace trailing) or yields an error
(a thrown `SyntaxError` in JavaScript, whose message is the error payload). -/
def jsonParse (s : Chars) : Except Chars JsonValue :=
  match jpValue (4 * s.length + 4) s with
  | .error e => .error e
  | .ok (v, rest) =>
    if rest.dropWhile isJsonWs = [] then .ok v
    else .error "Unexpected non-whitespace character after JSON".data

/-! ## `extract.ts` -/

/-- Scanner state of `findJson` (`extract.ts`): position `i`, bracket `depth`
(an `Int`: the source decrements unconditionally), string/escape flags, the
recorded `start` offset (`-1` when unset), the matches collected so far with
their positions, and `done`, modelling the `break` once the first match is
found in non-`all` mode. -/
structure FindSt where
  i : Nat
  depth : Int
  inStr : Bool
  esc : Bool
  start : Int
  results : List Chars
  positions : List (Nat × Nat)
  done : Bool
deriving DecidableEq

/-- One character step of the `findJson` loop.  `s` is the whole scanned text
(used for the `s.slice(start, i + 1)` at a match). -/
def findStep (s : Chars) (all : Bool) (st : FindSt) (c : Char) : FindSt :=
  if st.done then st
  else if st.esc then { st with esc := false, i := st.i + 1 }
  else if c = '\\' && st.inStr then { st with esc := true, i := st.i + 1 }
  else if c = '"' then { st with inStr := !st.inStr, i := st.i + 1 }
  else if st.inStr then { st with i := st.i + 1 }
  else if c = '{' || c = '[' then
    { st with start := if st.depth = 0 then (st.i : Int) else st.start,
              depth := st.depth + 1, i := st.i + 1 }
  else if c = '}' || c = ']' then
    if st.depth - 1 = 0 && 0 ≤ st.start then
      { st with depth := st.depth - 1, i := st.i + 1,
                results := st.results ++ [(s.drop st.start.toNat).take (st.i + 1 - st.start.toNat)],
                positions := st.positions ++ [(st.start.toNat, st.i + 1)],
                done := !all }
    else { st with depth := st.depth - 1, i := st.i + 1 }
  else { st with i := st.i + 1 }

def findInit : FindSt := ⟨0, 0, false, false, -1, [], [], false⟩

/-- `findJson` from `extract.ts`. -/
def findJson (s : Chars) (all : Bool) : ExtractResult :=
  let st := s.foldl (findStep s all) findInit
  match st.results, st.positions with
  | [], _ => ⟨none, 0, 0, some []⟩
  | j :: _, p :: _ => ⟨some j, p.1, p.2, some st.results⟩
  | j :: _, [] => ⟨some j, 0, 0, some st.results⟩

/-- First occurrence of a triple backtick: the text before it and the text
after it (helper for the markdown-fence regex model). -/
def splitAtTriple : Chars → Option (Chars × Chars)
  | [] => none
  | c :: rest =>
    if c = btickC then
      match rest with
      | d :: e :: r2 =>
        if d = btickC && e = btickC then some ([], r2)
        else match splitAtTriple rest with
             | some (a, b) => some (c :: a, b)
             | none => none
      | _ =>
        match splitAtTriple rest with
        | some (a, b) => some (c :: a, b)
        | none => none
    else
      match splitAtTriple rest with
      | some (a, b) => some (c :: a, b)
      | none => none

/-- Model of the global replace of ```` /```(?:json)?\s*\n?([\s\S]*?)\n?```/ ````
with the captured group, from `stripMd` in `extract.ts`: at each position, an
opening triple backtick followed (optionally) by `json`, greedy whitespace,
then the lazily shortest content up to a closing triple backtick (one
newline directly before the close being absorbed) is replaced by that
content; positions without a full match are copied. -/
def mdReplace : Nat → Chars → Chars
  | 0, s => s
  | fuel + 1, s =>
    match s with
    | [] => []
    | c :: rest =>
      if c = btickC then
        match rest with
        | d :: e :: r2 =>
          if d = btickC && e = btickC then
            let afterTag := if r2.take 4 = "json".data then r2.drop 4 else r2
            let afterWs := afterTag.dropWhile isWs
            match splitAtTriple afterWs with
            | some (content, afterClose) =>
              let captured := if content.getLast? = some '\n' then content.dropLast else content
              captured ++ mdReplace fuel afterClose
            | none => c :: mdReplace fuel rest
          else c :: mdReplace fuel rest
        | _ => c :: mdReplace fuel rest
      else c :: mdReplace fuel rest

/-- `String.prototype.trim` (ASCII whitespace). -/
def trimChars (s : Chars) : Chars :=
  ((s.dropWhile isWs).reverse.dropWhile isWs).reverse

/-- `stripMd` from `extract.ts`. -/
def stripMd (s : Chars) : Chars := trimChars (mdReplace (s.length + 1) s)

/-- `extract` from `extract.ts`. -/
def extract (input : Chars) : ExtractResult :=
  if input = [] then ⟨none, 0, 0, none⟩
  else findJson (stripMd input) false

/-- `extractAll` from `extract.ts`. -/
def extractAll (input : Chars) : ExtractResult :=
  if input = [] then ⟨none, 0, 0, some []⟩
  else findJson (stripMd input) true

/-! ## `repair.ts` -/

/-- Model of the global replace of ``` /```json?\s*\n?/gi ``` with the empty
string (`repair.ts` line 26, first replace): a triple backtick followed by
`jso` and an optional `n` (case-insensitive) and greedy whitespace is
removed; other positions are copied. -/
def fence1 : Nat → Chars → Chars
  | 0, s => s
  | fuel + 1, s =>
    match s with
    | [] => []
    | c :: rest =>
      if c = btickC then
        match rest with
        | d :: e :: rs =>
          if d = btickC && e = btickC then
            match rs with
            | j :: s1 :: o :: r2 =>
              if (j = 'j' || j = 'J') && (s1 = 's' || s1 = 'S') && (o = 'o' || o = 'O') then
                let r3 : Chars :=
                  match r2 with
                  | n :: r4 => if n = 'n' || n = 'N' then r4 else r2
                  | [] => r2
                fence1 fuel (r3.dropWhile isWs)
              else c :: fence1 fuel rest
            | _ => c :: fence1 fuel rest
          else c :: fence1 fuel rest
        | _ => c :: fence1 fuel rest
      else c :: fence1 fuel rest

/-- Does `s` consist of a triple backtick followed by whitespace only
(the ``` /```\s*$/ ``` pattern anchored at the end)? -/
def isTrailingFence (s : Chars) : Bool :=
  match s with
  | a :: b :: c :: r => a = btickC && b = btickC && c = btickC && r.all isWs
  | _ => false

/-- Model of the replace of ``` /```\s*$/g ``` with the empty string
(`repair.ts` line 26, second replace). -/
def fence2 : Chars → Chars
  | [] => []
  | c :: rest => if isTrailingFence (c :: rest) then [] else c :: fence2 rest

/-- Model of the global replace of `/\/\/[^\n]*/g` with the empty string
(`repair.ts` line 27): `//` and everything up to (excluding) the next
newline is removed, textually, strings included. -/
def stripLineComments : Nat → Chars → Chars
  | 0, s => s
  | fuel + 1, s =>
    match s with
    | [] => []
    | c :: rest =>
      if c = '/' then
        match rest with
        | d :: r2 =>
          if d = '/' then stripLineComments fuel (r2.dropWhile (fun ch => !(ch = '\n')))
          else c :: stripLineComments fuel rest
        | [] => [c]
      else c :: stripLineComments fuel rest

/-- Rest of the input after the first `*/`, if any. -/
def splitAtCloseComment : Chars → Option Chars
  | [] => none
  | c :: rest =>
    if c = '*' then
      match rest with
      | d :: r2 => if d = '/' then some r2 else splitAtCloseComment rest
      | [] => none
    else splitAtCloseComment rest

/-- Model of the global replace of `/\/\*[\s\S]*?\*\//g` with the empty
string (`repair.ts` line 27): a `/*` with a closing `*/` later is removed up
to the nearest close; an unclosed `/*` is copied. -/
def stripBlockComments : Nat → Chars → Chars
  | 0, s => s
  | fuel + 1, s =>
    match s with
    | [] => []
    | c :: rest =>
      if c = '/' then
        match rest with
        | d :: r2 =>
          if d = '*' then
            match splitAtCloseComment r2 with
            | some after => stripBlockComments fuel after
            | none => c :: stripBlockComments fuel rest
          else c :: stripBlockComments fuel rest
        | [] => [c]
      else c :: stripBlockComments fuel rest

/-- The `^(true|false|null|undefined|None|True|False)$` test from
`repair.ts`. -/
def isReserved (w : Chars) : Bool :=
  w = "true".data || w = "false".data || w = "null".data || w = "undefined".data ||
    w = "None".data || w = "True".data || w = "False".data

/-- Scanner state of `repairPass`: `inStr`, the current string delimiter `q`
(the source's `strQuote`; `Char.ofNat 0` models its empty-string resets),
the pending-escape flag and the `hadSingleQuote` flag. -/
structure RPSt where
  inStr : Bool
  q : Char
  esc : Bool
  had : Bool
deriving DecidableEq

def rpInit : RPSt := ⟨false, Char.ofNat 0, false, false⟩

/-- The `repairPass` while-loop from `repair.ts`, transliterated branch for
branch (fuel-structural; every step consumes at least one character, and the
wrapper supplies `length + 1` fuel).  Returns the rewritten text, the
warnings pushed during the pass, and the final `hadSingleQuote` flag. -/
def rpGo : Nat → RPSt → Chars → Chars × List Warning × Bool
  | 0, st, _ => ([], [], st.had)
  | fuel + 1, st, s =>
    match s with
    | [] => ([], [], st.had)
    | c :: rest =>
      if st.esc then
        let out : Chars :=
          if st.inStr && st.q = squoteC then
            (if c = squoteC then [squoteC]
             else if c = '"' then ['\\', '"']
             else [c])
          else [c]
        let (o, w, h) := rpGo fuel { st with esc := false } rest
        (out ++ o, w, h)
      else if c = '\\' && st.inStr then
        if st.q = squoteC then
          rpGo fuel { st with esc := true } rest
        else
          let (o, w, h) := rpGo fuel { st with esc := true } rest
          ('\\' :: o, w, h)
      else if c = '"' then
        if st.inStr then
          if st.q = '"' then
            let (o, w, h) := rpGo fuel { st with inStr := false, q := Char.ofNat 0 } rest
            ('"' :: o, w, h)
          else
            let (o, w, h) := rpGo fuel st rest
            ('\\' :: '"' :: o, w, h)
        else
          let (o, w, h) := rpGo fuel { st with inStr := true, q := '"' } rest
          ('"' :: o, w, h)
      else if c = squoteC then
        if st.inStr then
          if st.q = '"' then
            let (o, w, h) := rpGo fuel st rest
            (squoteC :: o, w, h)
          else
            let (o, w, h) := rpGo fuel { st with inStr := false, q := Char.ofNat 0, had := true } rest
            ('"' :: o, w, h)
        else
          let (o, w, h) := rpGo fuel { st with inStr := true, q := squoteC, had := true } rest
          ('"' :: o, w, h)
      else if st.inStr then
        let (o, w, h) := rpGo fuel st rest
        (c :: o, w, h)
      else if c = '{' || c = ',' then
        let wsRun := rest.takeWhile isWs
        let r1 := rest.dropWhile isWs
        match r1 with
        | [] => (c :: wsRun, [], st.had)
        | n :: r2 =>
          if n = '"' then
            let (o, w, h) := rpGo fuel { st with inStr := true, q := '"' } r2
            (c :: (wsRun ++ '"' :: o), w, h)
          else if n = squoteC then
            let (o, w, h) := rpGo fuel { st with inStr := true, q := squoteC, had := true } r2
            (c :: (wsRun ++ '"' :: o), w, h)
          else
            let word := r1.takeWhile isWordC
            let r3 := r1.dropWhile isWordC
            if word = [] then
              let (o, w, h) := rpGo fuel st r1
              (c :: (wsRun ++ o), w, h)
            else if isReserved word then
              let (o, w, h) := rpGo fuel st r3
              (c :: (wsRun ++ o), w, h)
            else
              let (o, w, h) := rpGo fuel st r3
              (c :: (wsRun ++ '"' :: (word ++ '"' :: o)), ⟨.unquoted_key_fixed, []⟩ :: w, h)
      else if (c :: rest).take 4 = "None".data then
        let (o, w, h) := rpGo fuel st ((c :: rest).drop 4)
        ("null".data ++ o, ⟨.python_literal_converted, []⟩ :: w, h)
      else if (c :: rest).take 4 = "True".data then
        let (o, w, h) := rpGo fuel st ((c :: rest).drop 4)
        ("true".data ++ o, ⟨.python_literal_converted, []⟩ :: w, h)
      else if (c :: rest).take 5 = "False".data then
        let (o, w, h) := rpGo fuel st ((c :: rest).drop 5)
        ("false".data ++ o, ⟨.python_literal_converted, []⟩ :: w, h)
      else
        let (o, w, h) := rpGo fuel st rest
        (c :: o, w, h)

/-- `repairPass` from `repair.ts`: runs the scanner and appends the
deduplicated `single_quotes_replaced` warning. -/
def repairPass (s : Chars) : Chars × List Warning :=
  let (o, w, h) := rpGo (s.length + 1) rpInit s
  (o, w ++ if h then [⟨.single_quotes_replaced, []⟩] else [])

/-- Model of the global replace of `/,\s*([}\])])/g`-style pattern
`,\s*([}\]])` with the captured bracket (`repair.ts` line 33). -/
def trailingCommaStrip : Nat → Chars → Chars
  | 0, s => s
  | fuel + 1, s =>
    match s with
    | [] => []
    | c :: rest =>
      if c = ',' then
        match rest.dropWhile isWs with
        | b :: r2 =>
          if b = '}' || b = ']' then b :: trailingCommaStrip fuel r2
          else c :: trailingCommaStrip fuel rest
        | [] => c :: trailingCommaStrip fuel rest
      else c :: trailingCommaStrip fuel rest

/-- Model of the global replace of `/,\s*,/g` with `,`
(`repair.ts` line 37). -/
def commaCollapse : Nat → Chars → Chars
  | 0, s => s
  | fuel + 1, s =>
    match s with
    | [] => []
    | c :: rest =>
      if c = ',' then
        match rest.dropWhile isWs with
        | b :: r2 =>
          if b = ',' then ',' :: commaCollapse fuel r2
          else c :: commaCollapse fuel rest
        | [] => c :: commaCollapse fuel rest
      else c :: commaCollapse fuel rest

/-- `repair` from `repair.ts`: trim, strip fences and comments, run
`repairPass`, remove trailing commas (with warning), collapse comma runs,
and set the `valid` flag by a strict parse. -/
def repair (input : Chars) : RepairResult :=
  if input = [] then ⟨[], [], false⟩
  else
    let s0 := trimChars input
    let s1 := fence2 (fence1 (s0.length + 1) s0)
    let s1l := stripLineComments (s1.length + 1) s1
    let s2 := stripBlockComments (s1l.length + 1) s1l
    let (p, w1) := repairPass s2
    let p2 := trailingCommaStrip (p.length + 1) p
    let w2 := if p2 ≠ p then w1 ++ [⟨.trailing_comma_removed, []⟩] else w1
    let p3 := commaCollapse (p2.length + 1) p2
    let valid : Bool := match jsonParse p3 with | .ok _ => true | .error _ => false
    ⟨p3, w2, valid⟩

/-! ## `partial.ts` -/

/-- The four `PartialParseOptions` flags after merging with the defaults. -/
structure POpts where
  allowPartialStrings : Bool
  allowPartialObjects : Bool
  allowPartialArrays : Bool
  allowPartialNumbers : Bool
deriving DecidableEq

/-- The `{allowPartialStrings: true, allowPartialObjects: true,
allowPartialArrays: true, allowPartialNumbers: false, ...options}` merge in
`parsePartial`. -/
def mergeOpts : Option PartialParseOptions → POpts
  | none => ⟨true, true, true, false⟩
  | some o =>
    ⟨o.allowPartialStrings.getD true, o.allowPartialObjects.getD true,
     o.allowPartialArrays.getD true, o.allowPartialNumbers.getD false⟩

/-- Model of the JavaScript builtin `parseFloat` as an exact rational;
`none` models `NaN`.  Sign, integer digits, optional fraction, optional
exponent (an exponent marker without digits is ignored, as `parseFloat`
takes the longest valid prefix); trailing junk is ignored. -/
def parseFloatQ (s : Chars) : Option ℚ :=
  let (sgn, s1) : Int × Chars :=
    match s with
    | c :: r => if c = '-' then (-1, r) else if c = '+' then (1, r) else (1, s)
    | [] => (1, s)
  let d1 := s1.takeWhile isDigitC
  let r1 := s1.dropWhile isDigitC
  let (d2, r2) : Chars × Chars :=
    match r1 with
    | c :: r => if c = '.' then (r.takeWhile isDigitC, r.dropWhile isDigitC) else ([], r1)
    | [] => ([], r1)
  if d1 = [] && d2 = [] then none
  else
    let e : Int :=
      match r2 with
      | c :: r3 =>
        if c = 'e' || c = 'E' then
          let r4 : Chars × Int :=
            match r3 with
            | c2 :: r5 =>
              if c2 = '-' then (r5, -1) else if c2 = '+' then (r5, 1) else (r3, 1)
            | [] => (r3, 1)
          let ed := r4.1.takeWhile isDigitC
          if ed = [] then 0 else r4.2 * (digitsToNat ed : Int)
        else 0
      | [] => 0
    some (decimalQ (sgn * (digitsToNat (d1 ++ d2) : Int)) (e - d2.length))

/-- String loop of `parseStr` in `partial.ts` (after the unconditional
`take()`), tracking the escape flag: a backslash is dropped and the next
character is kept verbatim; at end of input the accumulated content is a
value when `allowPartialStrings`. -/
def dpStrGo (o : POpts) (esc : Bool) : Chars → Except Chars (Chars × Chars)
  | [] =>
    if o.allowPartialStrings then .ok ([], []) else .error "Unterminated string".data
  | c :: rest =>
    if esc then
      match dpStrGo o false rest with
      | .ok (t, r) => .ok (c :: t, r)
      | .error e => .error e
    else if c = '\\' then dpStrGo o true rest
    else if c = '"' then .ok ([], rest)
    else
      match dpStrGo o false rest with
      | .ok (t, r) => .ok (c :: t, r)
      | .error e => .error e

/-- `parseStr` from `partial.ts`: unconditionally consumes the character at
the cursor (the opening quote — or whatever is there when called for an
object key), then reads the body. -/
def dpStr (o : POpts) (s : Chars) : Except Chars (Chars × Chars) :=
  dpStrGo o false s.tail

/-- `parseNum` from `partial.ts`: munches sign, digits, optional fraction
and exponent; under `allowPartialNumbers` a trailing `.` is dropped; the
slice goes through `parseFloat` (`nanNum` when that yields `NaN`).  Never
throws. -/
def dpNum (o : POpts) (s : Chars) : JsonValue × Chars :=
  let (signChars, s1) : Chars × Chars :=
    match s with
    | c :: r => if c = '-' then ([c], r) else ([], s)
    | [] => ([], s)
  let d1 := s1.takeWhile isDigitC
  let r1 := s1.dropWhile isDigitC
  let (dotChars, d2, r2) : Chars × Chars × Chars :=
    match r1 with
    | c :: r =>
      if c = '.' then (['.'], r.takeWhile isDigitC, r.dropWhile isDigitC) else ([], [], r1)
    | [] => ([], [], r1)
  let (expChars, r3) : Chars × Chars :=
    match r2 with
    | c :: r =>
      if c = 'e' || c = 'E' then
        let (sc, r4) : Chars × Chars :=
          match r with
          | c2 :: r5 => if c2 = '+' || c2 = '-' then ([c2], r5) else ([], r)
          | [] => ([], r)
        (c :: (sc ++ r4.takeWhile isDigitC), r4.dropWhile isDigitC)
      else ([], r2)
    | [] => ([], r2)
  let numSlice := signChars ++ d1 ++ dotChars ++ d2 ++ expChars
  let numSlice2 :=
    if o.allowPartialNumbers && numSlice.getLast? = some '.' then numSlice.dropLast
    else numSlice
  match parseFloatQ numSlice2 with
  | some q => (.num q, r3)
  | none => (.nanNum, r3)

mutual

/-- `parseValue` from `partial.ts`. -/
def dpValue : Nat → POpts → Chars → Except Chars (JsonValue × Chars)
  | 0, _, _ => .error "fuel".data
  | fuel + 1, o, s =>
    match s.dropWhile isWs with
    | [] => .error "Unexpected token at end of input".data
    | c :: rest =>
      if c = '{' then dpObj fuel o rest
      else if c = '[' then dpArr fuel o rest
      else if c = '"' then
        match dpStr o (c :: rest) with
        | .ok (t, r) => .ok (.str t, r)
        | .error e => .error e
      else if c = '-' || isDigitC c then .ok (dpNum o (c :: rest))
      else if (c :: rest).take 4 = "true".data then .ok (.bool true, (c :: rest).drop 4)
      else if (c :: rest).take 5 = "false".data then .ok (.bool false, (c :: rest).drop 5)
      else if (c :: rest).take 4 = "null".data then .ok (.null, (c :: rest).drop 4)
      else .error "Unexpected token".data

/-- `parseArr` from `partial.ts`, after the `[` is consumed: the pre-loop
`skip(); if (peek() === ']')` check, then the element loop. -/
def dpArr : Nat → POpts → Chars → Except Chars (JsonValue × Chars)
  | 0, _, _ => .error "fuel".data
  | fuel + 1, o, s =>
    match s.dropWhile isWs with
    | ']' :: r => .ok (.arr [], r)
    | s1 => dpArrLoop fuel o s1 []

/-- The `while (i < s.length)` element loop of `parseArr`. -/
def dpArrLoop : Nat → POpts → Chars → List JsonValue → Except Chars (JsonValue × Chars)
  | 0, _, _, _ => .error "fuel".data
  | fuel + 1, o, s, acc =>
    match s with
    | [] =>
      if o.allowPartialArrays then .ok (.arr acc.reverse, [])
      else .error "Unterminated array".data
    | _ =>
      match s.dropWhile isWs with
      | c :: rest =>
        if c = ']' then .ok (.arr acc.reverse, rest)
        else if c = ',' then dpArrLoop fuel o rest acc
        else
          match dpValue fuel o (c :: rest) with
          | .ok (v, r) => dpArrLoop fuel o r (v :: acc)
          | .error e => .error e
      | [] =>
        match dpValue fuel o [] with
        | .ok (v, r) => dpArrLoop fuel o r (v :: acc)
        | .error e => .error e

/-- `parseObj` from `partial.ts`, after the `{` is consumed. -/
def dpObj : Nat → POpts → Chars → Except Chars (JsonValue × Chars)
  | 0, _, _ => .error "fuel".data
  | fuel + 1, o, s =>
    match s.dropWhile isWs with
    | '}' :: r => .ok (.obj [], r)
    | s1 => dpObjLoop fuel o s1 []

/-- The `while (i < s.length)` member loop of `parseObj`.  A key with no
following colon returns the object as accumulated (key dropped) under
`allowPartialObjects`. -/
def dpObjLoop : Nat → POpts → Chars → List (Chars × JsonValue) →
    Except Chars (JsonValue × Chars)
  | 0, _, _, _ => .error "fuel".data
  | fuel + 1, o, s, acc =>
    match s with
    | [] =>
      if o.allowPartialObjects then .ok (.obj acc, [])
      else .error "Unterminated object".data
    | _ =>
      match s.dropWhile isWs with
      | c :: rest =>
        if c = '}' then .ok (.obj acc, rest)
        else if c = ',' then dpObjLoop fuel o rest acc
        else
          match dpStr o (c :: rest) with
          | .error e => .error e
          | .ok (key, r1) =>
            match r1.dropWhile isWs with
            | ':' :: r2 =>
              match dpValue fuel o r2 with
              | .ok (v, r3) => dpObjLoop fuel o r3 (assignMember acc key v)
              | .error e => .error e
            | r2 =>
              if o.allowPartialObjects then .ok (.obj acc, r2)
              else .error "Expected colon".data
      | [] =>
        match dpStr o [] with
        | .error e => .error e
        | .ok (key, r1) =>
          match r1.dropWhile isWs with
          | ':' :: r2 =>
            match dpValue fuel o r2 with
            | .ok (v, r3) => dpObjLoop fuel o r3 (assignMember acc key v)
            | .error e => .error e
          | r2 =>
            if o.allowPartialObjects then .ok (.obj acc, r2)
            else .error "Expected colon".data

end

/-- `doParse` from `partial.ts`: parses one value and ignores whatever
trails it. -/
def doParse (s : Chars) (o : POpts) : Except Chars JsonValue :=
  match dpValue (4 * s.length + 4) o s with
  | .ok (v, _) => .ok v
  | .error e => .error e

/-- `parsePartial` from `partial.ts`: empty-input guard, a strict
`JSON.parse` attempt, then `doParse` under the merged options; a `doParse`
throw becomes a `truncated` failure carrying the placeholder snapshot. -/
def parsePartial (input : Chars) (options : Option PartialParseOptions) : Result :=
  if input = [] then .failure ⟨.no_json_found, "Empty input".data⟩ none
  else
    match jsonParse input with
    | .ok v => .success v none
    | .error _ =>
      match doParse input (mergeOpts options) with
      | .ok v => .success v none
      | .error msg => .failure ⟨.truncated, msg⟩ (some ⟨.medium, .obj [], []⟩)

/-! ## `streaming.ts` -/

/-- The state owned by one `createStreamingParser` session. -/
structure SessSt where
  buf : Chars
  depth : Int
  inStr : Bool
  esc : Bool
  started : Bool
deriving DecidableEq

def sessInit : SessSt := ⟨[], 0, false, false, false⟩

/-- One character of the `update` scan in `createStreamingParser`
(`streaming.ts` lines 27–40); the buffer itself is appended in `update`. -/
def sessStep (st : SessSt) (ch : Char) : SessSt :=
  if st.esc then { st with esc := false }
  else if ch = '\\' && st.inStr then { st with esc := true }
  else if ch = '"' then { st with inStr := !st.inStr }
  else if st.inStr then st
  else if ch = '{' || ch = '[' then
    { st with started := st.started || st.depth = 0, depth := st.depth + 1 }
  else if ch = '}' || ch = ']' then { st with depth := st.depth - 1 }
  else st

/-- `update` from `streaming.ts`: append the chunk and scan exactly the
appended suffix, carrying the flags forward. -/
def update (st : SessSt) (c : Chars) : SessSt :=
  { c.foldl sessStep st with buf := st.buf ++ c }

/-- The partial-parse options the session passes to `parsePartial`
(`streaming.ts` line 24). -/
def sessPOpts : PartialParseOptions := ⟨some true, some true, some true, some false⟩

/-- `process` from `createStreamingParser` (no schema supplied): extract
from the whole buffer, repair, and partial-parse. -/
def sProcess (buf : Chars) : Result :=
  match (extract buf).json with
  | none => .failure ⟨.truncated, "No JSON found".data⟩ none
  | some j =>
    if j = [] then .failure ⟨.truncated, "No JSON found".data⟩ none
    else
      let rep := repair j
      parsePartial rep.output (some sessPOpts)

/-- `write` from `createStreamingParser`. -/
def sWrite (st : SessSt) (c : Chars) : SessSt × Result :=
  let st' := update st c
  (st', sProcess st'.buf)

/-- `finish` from `createStreamingParser`. -/
def sFinish (st : SessSt) : Result :=
  if !st.started then .failure ⟨.no_json_found, "No JSON found".data⟩ none
  else if 0 < st.depth || st.inStr then .failure ⟨.truncated, "Incomplete JSON".data⟩ none
  else sProcess st.buf

/-- `reset` from `createStreamingParser`. -/
def sReset : SessSt := sessInit

/-! ## `parse` (`index.ts`) -/

/-- `parse` from `index.ts` (no schema supplied): extract, strict parse,
and on failure repair then strict parse again. -/
def parse (input : Chars) : Result :=
  if input = [] then .failure ⟨.no_json_found, "Empty input".data⟩ none
  else
    match (extract input).json with
    | none => .failure ⟨.no_json_found, "No JSON found".data⟩ none
    | some j =>
      if j = [] then .failure ⟨.no_json_found, "No JSON found".data⟩ none
      else
        match jsonParse j with
        | .ok d => .success d none
        | .error _ =>
          let rep := repair j
          match jsonParse rep.output with
          | .ok d => .success d (if rep.warnings.length ≠ 0 then some rep.warnings else none)
          | .error e => .failure ⟨.invalid_json, e⟩ none

/-! ## Canonical serialization

A canonical, whitespace-free serializer (the output shape of the JavaScript
`JSON.stringify` on values whose strings need no escaping and whose numbers
are integers), used to state the refinement claims about serialized values. -/

/-- Decimal digits of `n`, most significant first (fuel-structural). -/
def natCharsAux : Nat → Nat → Chars
  | 0, _ => []
  | fuel + 1, n =>
    if n < 10 then [Char.ofNat (48 + n)]
    else natCharsAux fuel (n / 10) ++ [Char.ofNat (48 + n % 10)]

def natChars (n : Nat) : Chars := natCharsAux (n + 1) n

mutual

/-- Canonical serialization of a value. -/
def ser : JsonValue → Chars
  | .null => "null".data
  | .bool true => "true".data
  | .bool false => "false".data
  | .num q => if q.num < 0 then '-' :: natChars q.num.natAbs else natChars q.num.natAbs
  | .nanNum => "NaN".data
  | .str s => '"' :: (s ++ ['"'])
  | .arr es => '[' :: (serElems es ++ [']'])
  | .obj ms => '{' :: (serMembers ms ++ ['}'])

def serElems : List JsonValue → Chars
  | [] => []
  | [x] => ser x
  | x :: y :: xs => ser x ++ ',' :: serElems (y :: xs)

def serMembers : List (Chars × JsonValue) → Chars
  | [] => []
  | [(k, v)] => '"' :: (k ++ '"' :: ':' :: ser v)
  | (k, v) :: m :: ms => ('"' :: (k ++ '"' :: ':' :: ser v)) ++ ',' :: serMembers (m :: ms)

end

/-- A character that passes untouched through every textual stage of the
pipeline when it occurs inside a double-quoted string: printable, not a
quote or backslash (string structure), not a backtick (markdown-fence
stripping), not a slash (comment stripping), not a comma (trailing-comma
regexes). -/
def plainChar (c : Char) : Bool :=
  32 ≤ c.toNat && !(c = '"') && !(c = '\\') && !(c = btickC) && !(c = '/') && !(c = ',')

mutual

/-- Well-formed serializable values: strings made of `plainChar`s, integer
numbers, no `NaN`. -/
def wfB : JsonValue → Bool
  | .null => true
  | .bool _ => true
  | .num q => q.den = 1
  | .nanNum => false
  | .str s => s.all plainChar
  | .arr es => wfElemsB es
  | .obj ms => wfMembersB ms

def wfElemsB : List JsonValue → Bool
  | [] => true
  | x :: xs => wfB x && wfElemsB xs

def wfMembersB : List (Chars × JsonValue) → Bool
  | [] => true
  | (k, v) :: ms =>
    k.all plainChar && wfB v && !(ms.any (fun m => m.1 = k)) && wfMembersB ms

end

/-- Does the serialization of `v` start with a character that the repair
pass cannot mistake for a bare identifier (after a `{` or `,`)?  True for
strings, arrays, objects and negative numbers. -/
def tailSafe : JsonValue → Bool
  | .str _ => true
  | .arr _ => true
  | .obj _ => true
  | .num q => q.num < 0
  | _ => false

mutual

/-- Values whose canonical serialization passes through `repair` unchanged:
well-formed as in `wfB`, and in every array all elements after the first are
`tailSafe` (the repair pass would quote a bare number, and silently drop a
bare `true`/`false`/`null`, occurring directly after a comma). -/
def streamOkB : JsonValue → Bool
  | .null => true
  | .bool _ => true
  | .num q => q.den = 1
  | .nanNum => false
  | .str s => s.all plainChar
  | .arr es =>
    match es with
    | [] => true
    | x :: xs => streamOkB x && streamOkElems xs
  | .obj ms => streamOkMembers ms

def streamOkElems : List JsonValue → Bool
  | [] => true
  | x :: xs => tailSafe x && streamOkB x && streamOkElems xs

def streamOkMembers : List (Chars × JsonValue) → Bool
  | [] => true
  | (k, v) :: ms =>
    k.all plainChar && streamOkB v && !(ms.any (fun m => m.1 = k)) && streamOkMembers ms

end

/-- Is a value an object or array (so its serialization is bracketed)? -/
def isBracketed : JsonValue → Bool
  | .arr _ => true
  | .obj _ => true
  | _ => false

/-- The session state reached from a fresh session by a sequence of `write`
calls. -/
def writesFold (chunks : List Chars) : SessSt :=
  chunks.foldl (fun st c => (sWrite st c).1) sessInit

/-- Prose characters that the extraction scanner treats as inert: not a
quote, backslash, bracket, or backtick. -/
def noiseChar (c : Char) : Bool :=
  !(c = '"') && !(c = '\\') && !(c = '{') && !(c = '}') &&
    !(c = '[') && !(c = ']') && !(c = btickC)

/-- Does the text start with a canonical separator (or end)?  The characters
that can legally follow a serialized value inside a canonical serialization. -/
def sepHead : Chars → Bool
  | [] => true
  | c :: _ => c = ',' || c = '}' || c = ']'

/-- Characters that `rpGo` copies verbatim in normal (outside-string) state:
not a quote of either kind, not an opener of the key-lookahead (`{` or `,`),
not a backslash, and not the first letter of `None`/`True`/`False`. -/
def rpInertC (c : Char) : Bool :=
  !(c = '\\') && !(c = '"') && !(c = squoteC) && !(c = '{') && !(c = ',') &&
    !(c = 'N') && !(c = 'T') && !(c = 'F')

/-! ## Helper lemmas -/

theorem natCharsAux_fuel : ∀ (fuel n : Nat), n < fuel →
    natCharsAux fuel n = natChars n
  | 0, n, h => by omega
  | fuel + 1, n, h => by
    rw [natChars]
    by_cases h10 : n < 10
    · conv_lhs => rw [natCharsAux]
      conv_rhs => rw [natCharsAux]
      simp [h10]
    · have hd : n / 10 < n := Nat.div_lt_self (by omega) (by omega)
      conv_lhs => rw [natCharsAux]
      conv_rhs => rw [natCharsAux]
      simp only [h10, if_false]
      rw [natCharsAux_fuel fuel (n / 10) (by omega),
        natCharsAux_fuel n (n / 10) (by omega)]

theorem natChars_unfold (n : Nat) :
    natChars n = if n < 10 then [Char.ofNat (48 + n)]
      else natChars (n / 10) ++ [Char.ofNat (48 + n % 10)] := by
  rw [natChars, natCharsAux]
  by_cases h10 : n < 10
  · simp [h10]
  · have hd : n / 10 < n := Nat.div_lt_self (by omega) (by omega)
    simp only [h10, if_false]
    rw [natCharsAux_fuel n (n / 10) (by omega)]

theorem toNat_ofNat_small (n : Nat) (h : n < 1000) : (Char.ofNat n).toNat = n := by
  unfold Char.ofNat
  rw [dif_pos (by constructor; omega)]
  simp [Char.ofNatAux, Char.toNat, UInt32.toNat, BitVec.toNat_ofNatLt]

theorem natChars_digits (n : Nat) : ∀ c ∈ natChars n, isDigitC c = true := by
  induction n using Nat.strong_induction_on with
  | _ n ih =>
    rw [natChars_unfold]
    by_cases h10 : n < 10
    · simp only [h10, if_true, List.mem_singleton]
      rintro c rfl
      simp only [isDigitC, toNat_ofNat_small (48 + n) (by omega)]
      simp; omega
    · intro c hc
      simp only [h10, if_false, List.mem_append, List.mem_singleton] at hc
      rcases hc with hc | rfl
      · exact ih (n / 10) (Nat.div_lt_self (by omega) (by omega)) c hc
      · have := Nat.mod_lt n (show 0 < 10 by omega)
        simp only [isDigitC, toNat_ofNat_small (48 + n % 10) (by omega)]
        simp; omega

theorem natChars_ne_nil (n : Nat) : natChars n ≠ [] := by
  rw [natChars_unfold]
  by_cases h10 : n < 10 <;> simp [h10]

theorem natChars_cons (n : Nat) : ∃ d t, natChars n = d :: t ∧ isDigitC d = true := by
  cases h : natChars n with
  | nil => exact absurd h (natChars_ne_nil n)
  | cons d t =>
    exact ⟨d, t, rfl, natChars_digits n d (by rw [h]; simp)⟩

theorem natChars_head_ne0 (n : Nat) (hn : 1 ≤ n) : (natChars n).headI ≠ '0' := by
  induction n using Nat.strong_induction_on with
  | _ n ih =>
    rw [natChars_unfold]
    by_cases h10 : n < 10
    · simp only [h10, if_true, List.headI]
      intro h
      have := congrArg Char.toNat h
      rw [toNat_ofNat_small (48 + n) (by omega)] at this
      simp at this
      omega
    · simp only [h10, if_false]
      obtain ⟨d, t, hdt, _⟩ := natChars_cons (n / 10)
      rw [hdt]
      simp only [List.cons_append, List.headI]
      have := ih (n / 10) (Nat.div_lt_self (by omega) (by omega)) (by omega)
      rw [hdt] at this
      simpa using this

theorem digitsToNat_go (n : Nat) :
    ∀ acc, List.foldl (fun a c => a * 10 + (c.toNat - 48)) acc (natChars n)
      = acc * 10 ^ (natChars n).length + n := by
  induction n using Nat.strong_induction_on with
  | _ n ih =>
    intro acc
    rw [natChars_unfold]
    by_cases h10 : n < 10
    · simp only [h10, if_true, List.foldl_cons, List.foldl_nil, List.length_singleton]
      rw [toNat_ofNat_small (48 + n) (by omega)]
      omega
    · simp only [h10, if_false, List.foldl_append, List.foldl_cons, List.foldl_nil,
        List.length_append, List.length_singleton]
      rw [ih (n / 10) (Nat.div_lt_self (by omega) (by omega)) acc]
      rw [toNat_ofNat_small (48 + n % 10) (by omega)]
      rw [pow_succ]
      have hmod : n % 10 + 48 - 48 = n % 10 := by omega
      have : acc * 10 ^ (natChars (n / 10)).length * 10 + (n / 10) * 10 + n % 10
        = acc * (10 ^ (natChars (n / 10)).length * 10) + n := by
        rw [← Nat.mul_assoc]
        omega
      omega

theorem digitsToNat_natChars (n : Nat) : digitsToNat (natChars n) = n := by
  have := digitsToNat_go n 0
  simpa [digitsToNat] using this

theorem takeWhile_app (p : Char → Bool) :
    ∀ (xs ys : Chars), (∀ x ∈ xs, p x = true) →
      List.takeWhile p (xs ++ ys) = xs ++ List.takeWhile p ys
  | [], ys, _ => rfl
  | x :: xs, ys, h => by
    rw [List.cons_append, List.takeWhile_cons_of_pos (h x (by simp))]
    simp [takeWhile_app p xs ys (fun a ha => h a (by simp [ha]))]

theorem dropWhile_app (p : Char → Bool) :
    ∀ (xs ys : Chars), (∀ x ∈ xs, p x = true) →
      List.dropWhile p (xs ++ ys) = List.dropWhile p ys
  | [], ys, _ => rfl
  | x :: xs, ys, h => by
    rw [List.cons_append, List.dropWhile_cons_of_pos (h x (by simp))]
    exact dropWhile_app p xs ys (fun a ha => h a (by simp [ha]))

theorem dropWhile_of_takeWhile_nil (p : Char → Bool) (q : Chars)
    (h : q.takeWhile p = []) : q.dropWhile p = q := by
  cases q with
  | nil => rfl
  | cons c cs =>
    by_cases hp : p c = true
    · rw [List.takeWhile_cons_of_pos hp] at h; cases h
    · exact List.dropWhile_cons_of_neg hp

theorem plainChar_ne (c : Char) (h : plainChar c = true) :
    c ≠ '"' ∧ c ≠ '\\' ∧ 32 ≤ c.toNat := by
  simp only [plainChar, Bool.and_eq_true, Bool.not_eq_true', decide_eq_false_iff_not,
    decide_eq_true_eq] at h
  exact ⟨h.1.1.1.1.2, h.1.1.1.2, h.1.1.1.1.1⟩

theorem jpStr_plain : ∀ (content rest : Chars),
    (∀ c ∈ content, plainChar c = true) →
    jpStr (content ++ '"' :: rest) = .ok (content, rest)
  | [], rest, _ => by
    rw [List.nil_append, jpStr.eq_def]
    simp
  | c :: cs, rest, h => by
    obtain ⟨h1, h2, h3⟩ := plainChar_ne c (h c (by simp))
    rw [List.cons_append, jpStr.eq_def]
    simp only []
    rw [if_neg h1, if_neg h2, if_neg (by omega)]
    rw [jpStr_plain cs rest (fun x hx => h x (by simp [hx]))]

theorem sepHead_elim (rest : Chars) (h : sepHead rest = true) :
    rest = [] ∨ ∃ c t, rest = c :: t ∧ (c = ',' ∨ c = '}' ∨ c = ']') := by
  cases rest with
  | nil => exact Or.inl rfl
  | cons c t =>
    simp only [sepHead, Bool.or_eq_true, decide_eq_true_eq] at h
    exact Or.inr ⟨c, t, rfl, by tauto⟩

theorem sep_not_digit (rest : Chars) (h : sepHead rest = true) :
    rest.takeWhile isDigitC = [] ∧ rest.dropWhile isDigitC = rest := by
  rcases sepHead_elim rest h with rfl | ⟨c, t, rfl, hc⟩
  · simp
  · have : isDigitC c = false := by
      rcases hc with rfl | rfl | rfl <;> decide
    simp [List.takeWhile_cons_of_neg, List.dropWhile_cons_of_neg, this]

theorem decimalQ_zero (m : Int) : decimalQ m 0 = (m : ℚ) := by
  simp [decimalQ, Rat.mkRat_one]

theorem jpNum_nat (n : Nat) (rest : Chars) (hsep : sepHead rest = true) :
    jpNum (natChars n ++ rest) = .ok (.num (n : ℚ), rest) := by
  obtain ⟨d, t, hdt, hd⟩ := natChars_cons n
  have hdigits := natChars_digits n
  have htw : (natChars n ++ rest).takeWhile isDigitC = natChars n := by
    rw [takeWhile_app isDigitC _ rest hdigits, (sep_not_digit rest hsep).1, List.append_nil]
  have hdw : (natChars n ++ rest).dropWhile isDigitC = rest := by
    rw [dropWhile_app isDigitC _ rest hdigits, (sep_not_digit rest hsep).2]
  have hlz : ((natChars n).length > 1 && (natChars n).headI = '0') = false := by
    rw [Bool.and_eq_false_iff]
    by_cases hlen : (natChars n).length > 1
    · right
      have h1 : 1 ≤ n := by
        by_contra h0
        have hn0 : n = 0 := by omega
        rw [hn0, show natChars 0 = ['0'] from rfl] at hlen
        simp at hlen
      simp [natChars_head_ne0 n h1]
    · left; simp; omega
  have hdne : ¬(d = '-') := by
    intro hcon
    rw [hcon] at hd
    exact absurd hd (by decide)
  have hshape : d :: (t ++ rest) = natChars n ++ rest := by
    rw [hdt, List.cons_append]
  rw [jpNum.eq_def, hdt]
  simp only [List.cons_append, if_neg hdne]
  rw [hshape]
  simp only [htw, hdw]
  rw [if_neg (by simp [natChars_ne_nil n])]
  rw [hlz]
  simp only [Bool.false_eq_true, if_false]
  rcases sepHead_elim rest hsep with rfl | ⟨c, t2, rfl, hc⟩
  · simp only []
    rw [if_neg (by simp)]
    simp [digitsToNat_natChars, decimalQ_zero]
  · have hcdot : ¬(c = '.') := by rcases hc with rfl | rfl | rfl <;> decide
    have hce : ¬(c = 'e' || c = 'E') = true := by
      rcases hc with rfl | rfl | rfl <;> decide
    simp only [if_neg hcdot]
    rw [if_neg (by simp [hcdot])]
    simp only [hce]
    simp [digitsToNat_natChars, decimalQ_zero, Bool.false_eq_true]
theorem jpNum_neg (n : Nat) (rest : Chars) (hsep : sepHead rest = true) :
    jpNum ('-' :: (natChars n ++ rest)) = .ok (.num (-(n : ℚ)), rest) := by
  obtain ⟨d, t, hdt, hd⟩ := natChars_cons n
  have hdigits := natChars_digits n
  have htw : (natChars n ++ rest).takeWhile isDigitC = natChars n := by
    rw [takeWhile_app isDigitC _ rest hdigits, (sep_not_digit rest hsep).1, List.append_nil]
  have hdw : (natChars n ++ rest).dropWhile isDigitC = rest := by
    rw [dropWhile_app isDigitC _ rest hdigits, (sep_not_digit rest hsep).2]
  have hlz : ((natChars n).length > 1 && (natChars n).headI = '0') = false := by
    rw [Bool.and_eq_false_iff]
    by_cases hlen : (natChars n).length > 1
    · right
      have h1 : 1 ≤ n := by
        by_contra h0
        have hn0 : n = 0 := by omega
        rw [hn0, show natChars 0 = ['0'] from rfl] at hlen
        simp at hlen
      simp [natChars_head_ne0 n h1]
    · left; simp; omega
  rw [jpNum.eq_def]
  simp only [if_true]
  simp only [htw, hdw]
  rw [if_neg (by simp [natChars_ne_nil n])]
  rw [hlz]
  simp only [Bool.false_eq_true, if_false]
  rcases sepHead_elim rest hsep with rfl | ⟨c, t2, rfl, hc⟩
  · simp only []
    rw [if_neg (by simp)]
    simp only [digitsToNat_natChars, List.append_nil, List.length_nil, Nat.cast_zero,
      neg_zero, decimalQ_zero, Bool.false_eq_true, if_false]
    congr 2
    push_cast
    ring
  · have hcdot : ¬(c = '.') := by rcases hc with rfl | rfl | rfl <;> decide
    have hce : ¬(c = 'e' || c = 'E') = true := by
      rcases hc with rfl | rfl | rfl <;> decide
    simp only [if_neg hcdot]
    rw [if_neg (by simp [hcdot])]
    simp only [hce]
    simp only [digitsToNat_natChars, List.append_nil, List.length_nil, Nat.cast_zero,
      neg_zero, decimalQ_zero, Bool.false_eq_true, if_false]
    congr 2
    push_cast
    ring

theorem jpNum_int (q : ℚ) (rest : Chars) (hq : q.den = 1) (hsep : sepHead rest = true) :
    jpNum ((if q.num < 0 then '-' :: natChars q.num.natAbs else natChars q.num.natAbs) ++ rest)
      = .ok (.num q, rest) := by
  have hqq : ((q.num : ℤ) : ℚ) = q := (Rat.den_eq_one_iff q).mp hq
  by_cases hm : q.num < 0
  · have h2 : (q.num.natAbs : ℤ) = -q.num := by omega
    have hval : (-(q.num.natAbs : ℚ)) = q := by
      calc (-(q.num.natAbs : ℚ)) = -(((q.num.natAbs : ℤ)) : ℚ) := by rw [Int.cast_natCast]
        _ = -(((-q.num : ℤ)) : ℚ) := by rw [h2]
        _ = ((q.num : ℤ) : ℚ) := by rw [Int.cast_neg]; ring
        _ = q := hqq
    simp only [hm, if_true, List.cons_append]
    rw [jpNum_neg q.num.natAbs rest hsep, hval]
  · have h2 : (q.num.natAbs : ℤ) = q.num := by omega
    have hval : ((q.num.natAbs : ℚ)) = q := by
      calc ((q.num.natAbs : ℚ)) = (((q.num.natAbs : ℤ)) : ℚ) := by rw [Int.cast_natCast]
        _ = ((q.num : ℤ) : ℚ) := by rw [h2]
        _ = q := hqq
    simp only [hm, if_false]
    rw [jpNum_nat q.num.natAbs rest hsep, hval]

theorem digit_not_jsonWs (c : Char) (h : isDigitC c = true) : isJsonWs c = false := by
  by_contra hc
  rw [Bool.not_eq_false] at hc
  simp only [isJsonWs, Bool.or_eq_true, decide_eq_true_eq] at hc
  rcases hc with ((rfl | rfl) | rfl) | rfl <;> exact absurd h (by decide)

theorem digit_not_ws (c : Char) (h : isDigitC c = true) : isWs c = false := by
  by_contra hc
  rw [Bool.not_eq_false] at hc
  simp only [isWs, Bool.or_eq_true, decide_eq_true_eq] at hc
  rcases hc with ((((rfl | rfl) | rfl) | rfl) | h32) | h32
  · exact absurd h (by decide)
  · exact absurd h (by decide)
  · exact absurd h (by decide)
  · exact absurd h (by decide)
  · simp only [isDigitC, Bool.and_eq_true, decide_eq_true_eq] at h
    omega
  · simp only [isDigitC, Bool.and_eq_true, decide_eq_true_eq] at h
    omega

theorem digit_ne (c : Char) (h : isDigitC c = true) (x : Char)
    (hx : isDigitC x = false) : c ≠ x := by
  rintro rfl
  rw [h] at hx
  cases hx

/-- Head characterization of a canonical serialization: nonempty, head not
whitespace, and not a closing/separator character. -/
theorem ser_head (v : JsonValue) (hv : wfB v = true) :
    ∃ c t, ser v = c :: t ∧ isJsonWs c = false ∧ isWs c = false ∧
      c ≠ ']' ∧ c ≠ '}' ∧ c ≠ ',' ∧ c ≠ ':' := by
  cases v with
  | null => exact ⟨'n', _, rfl, by decide, by decide, by decide, by decide, by decide, by decide⟩
  | bool b =>
    cases b
    · exact ⟨'f', _, rfl, by decide, by decide, by decide, by decide, by decide, by decide⟩
    · exact ⟨'t', _, rfl, by decide, by decide, by decide, by decide, by decide, by decide⟩
  | num q =>
    by_cases hm : q.num < 0
    · exact ⟨'-', natChars q.num.natAbs, by simp [ser, hm], by decide, by decide, by decide,
        by decide, by decide, by decide⟩
    · obtain ⟨d, t, hdt, hd⟩ := natChars_cons q.num.natAbs
      refine ⟨d, t, by simp [ser, hm, hdt], digit_not_jsonWs d hd, digit_not_ws d hd,
        digit_ne d hd _ (by decide), digit_ne d hd _ (by decide),
        digit_ne d hd _ (by decide), digit_ne d hd _ (by decide)⟩
  | nanNum => exact absurd hv (by simp [wfB])
  | str s => exact ⟨'"', _, rfl, by decide, by decide, by decide, by decide, by decide, by decide⟩
  | arr es => exact ⟨'[', _, rfl, by decide, by decide, by decide, by decide, by decide, by decide⟩
  | obj ms => exact ⟨'{', _, rfl, by decide, by decide, by decide, by decide, by decide, by decide⟩

theorem assignMember_append : ∀ (acc : List (Chars × JsonValue)) (k : Chars) (v : JsonValue),
    (∀ m ∈ acc, ¬(m.1 = k)) → assignMember acc k v = acc ++ [(k, v)]
  | [], k, v, _ => rfl
  | (k0, v0) :: acc, k, v, h => by
    rw [assignMember, if_neg (h (k0, v0) (by simp))]
    rw [assignMember_append acc k v (fun m hm => h m (by simp [hm]))]
    rfl

theorem foldl_assign : ∀ (ms acc : List (Chars × JsonValue)),
    (∀ m ∈ ms, ∀ a ∈ acc, ¬(a.1 = m.1)) →
    List.Pairwise (fun a b => ¬(a.1 = b.1)) ms →
    ms.foldl (fun acc kv => assignMember acc kv.1 kv.2) acc = acc ++ ms
  | [], acc, _, _ => by simp
  | (k, v) :: ms, acc, hdisj, hpw => by
    simp only [List.foldl_cons]
    rw [assignMember_append acc k v (fun m hm => hdisj (k, v) (by simp) m hm)]
    rw [foldl_assign ms (acc ++ [(k, v)]) ?_ (List.Pairwise.of_cons hpw)]
    · simp
    · intro m hm a ha
      rcases List.mem_append.mp ha with ha | ha
      · exact hdisj m (by simp [hm]) a ha
      · simp only [List.mem_singleton] at ha
        subst ha
        exact (List.pairwise_cons.mp hpw).1 m hm
  termination_by ms => ms.length

theorem wfMembersB_pairwise : ∀ (ms : List (Chars × JsonValue)),
    wfMembersB ms = true → List.Pairwise (fun a b => ¬(a.1 = b.1)) ms
  | [], _ => List.Pairwise.nil
  | (k, v) :: ms, h => by
    simp only [wfMembersB, Bool.and_eq_true] at h
    refine List.pairwise_cons.mpr ⟨?_, wfMembersB_pairwise ms h.2⟩
    intro m hm
    have hany := h.1.2
    rw [Bool.not_eq_true', List.any_eq_false] at hany
    intro hcon
    have h5 := hany m hm
    simp only [decide_eq_true_eq] at h5
    exact h5 (by simpa using hcon.symm)

theorem foldl_assign_nil (ms : List (Chars × JsonValue)) (h : wfMembersB ms = true) :
    ms.foldl (fun acc kv => assignMember acc kv.1 kv.2) [] = ms := by
  have := foldl_assign ms [] (by simp) (wfMembersB_pairwise ms h)
  simpa using this

theorem jpArr_cons_ne (fuel : Nat) (c : Char) (l : Chars)
    (hc : c ≠ ']') (hws : isJsonWs c = false) :
    jpArr (fuel + 1) (c :: l)
      = match jpElems fuel (c :: l) with
        | .ok (es, r) => .ok (.arr es, r)
        | .error e => .error e := by
  simp only [jpArr]
  rw [List.dropWhile_cons_of_neg (by simp [hws])]
  split
  · rename_i heq
    rw [List.cons.injEq] at heq
    exact absurd heq.1 hc
  · rfl

theorem jpObj_cons_ne (fuel : Nat) (c : Char) (l : Chars)
    (hc : c ≠ '}') (hws : isJsonWs c = false) :
    jpObj (fuel + 1) (c :: l)
      = match jpMembers fuel (c :: l) with
        | .ok (ms, r) =>
          .ok (.obj (ms.foldl (fun acc kv => assignMember acc kv.1 kv.2) []), r)
        | .error e => .error e := by
  simp only [jpObj]
  rw [List.dropWhile_cons_of_neg (by simp [hws])]
  split
  · rename_i heq
    rw [List.cons.injEq] at heq
    exact absurd heq.1 hc
  · rfl

theorem jpMembers_step (fuel : Nat) (kk : Chars) (s after : Chars)
    (hstr : jpStr s = .ok (kk, ':' :: after)) :
    jpMembers (fuel + 1) ('"' :: s)
      = match jpValue fuel after with
        | .error msg => .error msg
        | .ok (v, afterVal) =>
          match afterVal.dropWhile isJsonWs with
          | '}' :: fin => .ok ([(kk, v)], fin)
          | ',' :: afterComma =>
            match jpMembers fuel afterComma with
            | .error msg => .error msg
            | .ok (moreMs, fin) => .ok ((kk, v) :: moreMs, fin)
          | _ => .error "Expected comma or brace in JSON object".data := by
  simp only [jpMembers]
  rw [List.dropWhile_cons_of_neg (by decide)]
  split
  · rename_i afterQuote heq
    rw [List.cons.injEq] at heq
    rw [← heq.2, hstr]
    dsimp only
    rw [List.dropWhile_cons_of_neg (by decide)]
    split
    · rename_i afterColon heq2
      rw [List.cons.injEq] at heq2
      rw [← heq2.2]
    · rename_i hne
      exact absurd rfl (hne after)
  · rename_i hne
    exact absurd rfl (hne s)

mutual

theorem rt_val : ∀ (v : JsonValue) (rest : Chars) (fuel : Nat),
    wfB v = true → 2 * (ser v).length < fuel → sepHead rest = true →
    jpValue fuel (ser v ++ rest) = .ok (v, rest)
  | v, _, 0, _, hf, _ => by omega
  | .null, rest, fuel + 1, _, _, _ => by
    show jpValue (fuel + 1) ('n' :: 'u' :: 'l' :: 'l' :: rest) = _
    simp only [jpValue]
    rw [List.dropWhile_cons_of_neg (by decide)]
    simp [List.take, List.drop, show isDigitC 'n' = false from by decide]
  | .bool true, rest, fuel + 1, _, _, _ => by
    show jpValue (fuel + 1) ('t' :: 'r' :: 'u' :: 'e' :: rest) = _
    simp only [jpValue]
    rw [List.dropWhile_cons_of_neg (by decide)]
    simp [List.take, List.drop, show isDigitC 't' = false from by decide]
  | .bool false, rest, fuel + 1, _, _, _ => by
    show jpValue (fuel + 1) ('f' :: 'a' :: 'l' :: 's' :: 'e' :: rest) = _
    simp only [jpValue]
    rw [List.dropWhile_cons_of_neg (by decide)]
    simp [List.take, List.drop, show isDigitC 'f' = false from by decide]
  | .nanNum, _, _ + 1, hv, _, _ => by simp [wfB] at hv
  | .num q, rest, fuel + 1, hv, _, hsep => by
    have hq : q.den = 1 := by simpa [wfB] using hv
    have hser : ser (.num q)
        = (if q.num < 0 then '-' :: natChars q.num.natAbs else natChars q.num.natAbs) := by
      by_cases hm : q.num < 0 <;> simp [ser, hm]
    rw [hser]
    have hnum := jpNum_int q rest hq hsep
    by_cases hm : q.num < 0
    · rw [if_pos hm] at hnum ⊢
      rw [List.cons_append]
      simp only [jpValue]
      rw [List.dropWhile_cons_of_neg (by decide)]
      dsimp only
      rw [if_neg (by decide), if_neg (by decide), if_neg (by decide),
        if_pos (by decide)]
      rw [← List.cons_append]
      exact hnum
    · rw [if_neg hm] at hnum ⊢
      obtain ⟨d, t, hdt, hd⟩ := natChars_cons q.num.natAbs
      rw [hdt, List.cons_append]
      simp only [jpValue]
      rw [List.dropWhile_cons_of_neg (by simp [digit_not_jsonWs d hd])]
      dsimp only
      rw [if_neg (digit_ne d hd _ (by decide)), if_neg (digit_ne d hd _ (by decide)),
        if_neg (digit_ne d hd _ (by decide)), if_pos (by simp [hd])]
      rw [← List.cons_append, ← hdt]
      exact hnum
  | .str s, rest, fuel + 1, hv, _, _ => by
    have hc : ∀ c ∈ s, plainChar c = true := by
      simpa [wfB, List.all_eq_true] using hv
    show jpValue (fuel + 1) ('"' :: (s ++ ['"']) ++ rest) = _
    simp only [jpValue]
    rw [List.cons_append, List.dropWhile_cons_of_neg (by decide)]
    dsimp only
    rw [if_neg (by decide), if_neg (by decide), if_pos rfl]
    rw [show (s ++ ['"']) ++ rest = s ++ '"' :: rest by simp]
    rw [jpStr_plain s rest hc]
  | .arr [], rest, fuel + 1, _, hf, _ => by
    obtain ⟨f2, rfl⟩ : ∃ f2, fuel = f2 + 1 := by
      refine ⟨fuel - 1, ?_⟩
      simp [ser, serElems] at hf
      omega
    show jpValue (f2 + 1 + 1) ('[' :: (serElems [] ++ [']']) ++ rest) = _
    simp only [serElems]
    simp only [jpValue]
    rw [List.cons_append, List.dropWhile_cons_of_neg (by decide)]
    dsimp only
    rw [if_neg (by decide), if_pos rfl]
    simp only [List.nil_append, List.singleton_append, jpArr]
    rw [List.dropWhile_cons_of_neg (by decide)]
    rfl
  | .arr (x :: xs), rest, fuel + 1, hv, hf, _ => by
    have hwf : wfB x = true ∧ wfElemsB xs = true := by
      simpa [wfB, wfElemsB, Bool.and_eq_true] using hv
    obtain ⟨f2, rfl⟩ : ∃ f2, fuel = f2 + 1 := by
      refine ⟨fuel - 1, ?_⟩
      simp [ser] at hf
      omega
    have helems := rt_elems x xs rest f2
      (by simpa [wfB] using hv)
      (by simp [ser] at hf; omega)
    show jpValue (f2 + 1 + 1) ('[' :: (serElems (x :: xs) ++ [']']) ++ rest) = _
    simp only [jpValue]
    rw [List.cons_append, List.dropWhile_cons_of_neg (by decide)]
    dsimp only
    rw [if_neg (by decide), if_pos rfl]
    rw [show (serElems (x :: xs) ++ [']']) ++ rest = serElems (x :: xs) ++ ']' :: rest by simp]
    obtain ⟨c, t, hct, hws, _, hbr, _, _, _⟩ := ser_head x hwf.1
    have hshape2 : ∃ l, serElems (x :: xs) ++ ']' :: rest = c :: l := by
      cases xs with
      | nil => exact ⟨t ++ ']' :: rest, by simp [serElems, hct]⟩
      | cons y ys => exact ⟨t ++ (',' :: serElems (y :: ys)) ++ ']' :: rest, by
          simp [serElems, hct]⟩
    obtain ⟨l, hl⟩ := hshape2
    rw [hl, jpArr_cons_ne f2 c l hbr hws, ← hl, helems]
  | .obj [], rest, fuel + 1, _, hf, _ => by
    obtain ⟨f2, rfl⟩ : ∃ f2, fuel = f2 + 1 := by
      refine ⟨fuel - 1, ?_⟩
      simp [ser, serMembers] at hf
      omega
    show jpValue (f2 + 1 + 1) ('{' :: (serMembers [] ++ ['}']) ++ rest) = _
    simp only [serMembers]
    simp only [jpValue]
    rw [List.cons_append, List.dropWhile_cons_of_neg (by decide)]
    dsimp only
    rw [if_pos rfl]
    simp only [List.nil_append, List.singleton_append, jpObj]
    rw [List.dropWhile_cons_of_neg (by decide)]
    rfl
  | .obj ((k, val) :: ms), rest, fuel + 1, hv, hf, _ => by
    have hwfm : wfMembersB ((k, val) :: ms) = true := by simpa [wfB] using hv
    obtain ⟨f2, rfl⟩ : ∃ f2, fuel = f2 + 1 := by
      refine ⟨fuel - 1, ?_⟩
      simp [ser] at hf
      omega
    have hmem := rt_members k val ms rest f2 hwfm
      (by simp [ser] at hf; omega)
    show jpValue (f2 + 1 + 1) ('{' :: (serMembers ((k, val) :: ms) ++ ['}']) ++ rest) = _
    simp only [jpValue]
    rw [List.cons_append, List.dropWhile_cons_of_neg (by decide)]
    dsimp only
    rw [if_pos rfl]
    rw [show (serMembers ((k, val) :: ms) ++ ['}']) ++ rest
      = serMembers ((k, val) :: ms) ++ '}' :: rest by simp]
    have hshape2 : ∃ l, serMembers ((k, val) :: ms) ++ '}' :: rest = '"' :: l := by
      cases ms with
      | nil => exact ⟨(k ++ '"' :: ':' :: ser val) ++ '}' :: rest, by simp [serMembers]⟩
      | cons m ms2 => exact ⟨(k ++ '"' :: ':' :: ser val) ++ (',' :: serMembers (m :: ms2))
          ++ '}' :: rest, by simp [serMembers]⟩
    obtain ⟨l, hl⟩ := hshape2
    rw [hl, jpObj_cons_ne f2 '"' l (by decide) (by decide), ← hl, hmem]
    dsimp only
    rw [foldl_assign_nil _ hwfm]
  termination_by v _ _ _ _ _ => sizeOf v
  decreasing_by
  all_goals simp_wf
  all_goals omega

theorem rt_elems : ∀ (x : JsonValue) (xs : List JsonValue) (rest : Chars) (fuel : Nat),
    wfElemsB (x :: xs) = true → 2 * (serElems (x :: xs)).length + 2 < fuel →
    jpElems fuel (serElems (x :: xs) ++ ']' :: rest) = .ok (x :: xs, rest)
  | _, _, _, 0, _, hf => by omega
  | x, [], rest, fuel + 1, hv, hf => by
    have hx : wfB x = true := by
      simp only [wfElemsB, Bool.and_eq_true] at hv
      exact hv.1
    have hval := rt_val x (']' :: rest) fuel hx
      (by simp [serElems] at hf; omega) (by simp [sepHead])
    simp only [serElems] at hf ⊢
    simp only [jpElems]
    rw [hval]
    dsimp only
    rw [List.dropWhile_cons_of_neg (by decide)]
    rfl
  | x, y :: ys, rest, fuel + 1, hv, hf => by
    have hx : wfB x = true ∧ wfElemsB (y :: ys) = true := by
      simpa [wfElemsB, Bool.and_eq_true] using hv
    have hlen : (serElems (x :: y :: ys)).length
        = (ser x).length + 1 + (serElems (y :: ys)).length := by
      simp [serElems]
      omega
    have hval := rt_val x (',' :: (serElems (y :: ys) ++ ']' :: rest)) fuel hx.1
      (by omega) (by simp [sepHead])
    have htail := rt_elems y ys rest fuel hx.2 (by omega)
    have hshape : serElems (x :: y :: ys) ++ ']' :: rest
        = ser x ++ ',' :: (serElems (y :: ys) ++ ']' :: rest) := by
      simp [serElems]
    rw [hshape]
    simp only [jpElems]
    rw [hval]
    dsimp only
    rw [List.dropWhile_cons_of_neg (by decide)]
    split
    · rename_i heq
      exact absurd heq (by simp)
    · rename_i afterComma heq
      rw [List.cons.injEq] at heq
      rw [← heq.2, htail]
    · rename_i hne
      exact absurd rfl (hne (serElems (y :: ys) ++ ']' :: rest))
  termination_by x xs _ _ _ _ => sizeOf x + sizeOf xs + 1
  decreasing_by
  all_goals simp_wf
  all_goals omega

theorem rt_members : ∀ (k : Chars) (val : JsonValue) (ms : List (Chars × JsonValue))
    (rest : Chars) (fuel : Nat),
    wfMembersB ((k, val) :: ms) = true → 2 * (serMembers ((k, val) :: ms)).length + 2 < fuel →
    jpMembers fuel (serMembers ((k, val) :: ms) ++ '}' :: rest) = .ok ((k, val) :: ms, rest)
  | _, _, _, _, 0, _, hf => by omega
  | k, val, [], rest, fuel + 1, hv, hf => by
    have hks : (∀ c ∈ k, plainChar c = true) ∧ wfB val = true := by
      simp only [wfMembersB, Bool.and_eq_true] at hv
      exact ⟨fun c hc => by simpa using List.all_eq_true.mp hv.1.1.1 c hc, hv.1.1.2⟩
    have hlen : (serMembers [(k, val)]).length = k.length + 3 + (ser val).length := by
      simp [serMembers]
      omega
    have hval := rt_val val ('}' :: rest) fuel hks.2 (by omega) (by simp [sepHead])
    have hshape : serMembers [(k, val)] ++ '}' :: rest
        = '"' :: (k ++ '"' :: ':' :: (ser val ++ '}' :: rest)) := by
      simp [serMembers]
    rw [hshape]
    have hstr : jpStr (k ++ '"' :: ':' :: (ser val ++ '}' :: rest))
        = .ok (k, ':' :: (ser val ++ '}' :: rest)) := jpStr_plain k _ hks.1
    rw [jpMembers_step fuel k _ _ hstr, hval]
    dsimp only
    rw [List.dropWhile_cons_of_neg (by decide)]
    rfl
  | k, val, (k2, v2) :: ms2, rest, fuel + 1, hv, hf => by
    have hks : (∀ c ∈ k, plainChar c = true) ∧ wfB val = true := by
      simp only [wfMembersB, Bool.and_eq_true] at hv
      exact ⟨fun c hc => by simpa using List.all_eq_true.mp hv.1.1.1 c hc, hv.1.1.2⟩
    have hvtail : wfMembersB ((k2, v2) :: ms2) = true := by
      simp only [wfMembersB, Bool.and_eq_true] at hv ⊢
      exact hv.2
    have hlen : (serMembers ((k, val) :: (k2, v2) :: ms2)).length
        = k.length + 3 + (ser val).length + 1 + (serMembers ((k2, v2) :: ms2)).length := by
      simp [serMembers]
      omega
    have hval := rt_val val (',' :: (serMembers ((k2, v2) :: ms2) ++ '}' :: rest)) fuel hks.2
      (by omega) (by simp [sepHead])
    have htail := rt_members k2 v2 ms2 rest fuel hvtail (by omega)
    have hshape : serMembers ((k, val) :: (k2, v2) :: ms2) ++ '}' :: rest
        = '"' :: (k ++ '"' :: ':' ::
            (ser val ++ ',' :: (serMembers ((k2, v2) :: ms2) ++ '}' :: rest))) := by
      simp [serMembers]
    rw [hshape]
    have hstr : jpStr (k ++ '"' :: ':' ::
          (ser val ++ ',' :: (serMembers ((k2, v2) :: ms2) ++ '}' :: rest)))
        = .ok (k, ':' :: (ser val ++ ',' :: (serMembers ((k2, v2) :: ms2) ++ '}' :: rest)))
      := jpStr_plain k _ hks.1
    rw [jpMembers_step fuel k _ _ hstr, hval]
    dsimp only
    rw [List.dropWhile_cons_of_neg (by decide)]
    split
    · rename_i heq
      exact absurd heq (by simp)
    · rename_i afterComma heq
      rw [List.cons.injEq] at heq
      rw [← heq.2, htail]
    · rename_i hne
      exact absurd rfl (hne (serMembers ((k2, v2) :: ms2) ++ '}' :: rest))
  termination_by _ val ms _ _ _ _ => sizeOf val + sizeOf ms + 1
  decreasing_by
  all_goals simp_wf
  all_goals omega

end

theorem jsonParse_ser (v : JsonValue) (hv : wfB v = true) :
    jsonParse (ser v) = .ok v := by
  have h := rt_val v [] (4 * (ser v).length + 4) hv (by omega) (by simp [sepHead])
  have h2 : jpValue (4 * (ser v).length + 4) (ser v) = .ok (v, []) := by simpa using h
  simp [jsonParse, h2]

theorem resultTagged (r : Result) :
    (∃ d w, r = .success d w) ∨ (∃ e p, r = .failure e p) := by
  cases r with
  | success d w => exact Or.inl ⟨d, w, rfl⟩
  | failure e p => exact Or.inr ⟨e, p, rfl⟩

theorem sessStep_buf (st : SessSt) (b : Chars) (ch : Char) :
    sessStep { st with buf := b } ch = { sessStep st ch with buf := b } := by
  obtain ⟨st_buf, d, i, e, s⟩ := st
  simp only [sessStep]
  split_ifs <;> rfl

theorem foldl_sessStep_buf (c : Chars) (st : SessSt) (b : Chars) :
    c.foldl sessStep { st with buf := b } = { c.foldl sessStep st with buf := b } := by
  induction c generalizing st with
  | nil => rfl
  | cons ch cs ih => simp only [List.foldl_cons, sessStep_buf, ih]

theorem writes_acc : ∀ (chunks : List Chars) (st : SessSt),
    chunks.foldl (fun st c => (sWrite st c).1) st
      = { chunks.flatten.foldl sessStep st with buf := st.buf ++ chunks.flatten }
  | [], st => by simp
  | c :: cs, st => by
    simp only [List.foldl_cons, List.flatten_cons]
    rw [writes_acc cs]
    show { cs.flatten.foldl sessStep (update st c) with buf := (update st c).buf ++ cs.flatten } = _
    simp only [update, foldl_sessStep_buf]
    rw [← List.foldl_append, List.append_assoc]

/-- Inside a double-quoted string, `rpGo` copies every character other than
an (unescaped) quote or backslash verbatim — apostrophes included — up to
and including the closing quote, then continues outside the string. -/
theorem rpGo_dquote_body : ∀ (content rest : Chars) (st : RPSt) (fuel : Nat),
    st.inStr = true → st.q = '"' → st.esc = false →
    (∀ c ∈ content, c ≠ '"' ∧ c ≠ '\\') →
    content.length + 1 ≤ fuel →
    rpGo fuel st (content ++ '"' :: rest) =
      ((content ++ '"' :: (rpGo (fuel - (content.length + 1))
          ⟨false, Char.ofNat 0, false, st.had⟩ rest).1),
        (rpGo (fuel - (content.length + 1)) ⟨false, Char.ofNat 0, false, st.had⟩ rest).2)
  | [], rest, st, fuel, hin, hq, hesc, _, hf => by
    obtain ⟨fuel, rfl⟩ : ∃ f, fuel = f + 1 := ⟨fuel - 1, by omega⟩
    obtain ⟨i, q, e, h⟩ := st
    simp only at hin hq hesc
    subst hin hq hesc
    simp [rpGo]
  | c :: cs, rest, st, fuel, hin, hq, hesc, hc, hf => by
    obtain ⟨fuel, rfl⟩ : ∃ f, fuel = f + 1 := ⟨fuel - 1, by omega⟩
    obtain ⟨i, q, e, h⟩ := st
    simp only at hin hq hesc
    subst hin hq hesc
    have hc1 := hc c (by simp)
    have harith : fuel - (cs.length + 1) = fuel + 1 - ((c :: cs).length + 1) := by
      simp only [List.length_cons]; omega
    have key := rpGo_dquote_body cs rest ⟨true, '"', false, h⟩ fuel rfl rfl rfl
      (fun x hx => hc x (by simp [hx])) (by simp only [List.length_cons] at hf; omega)
    simp only at key
    by_cases hsq : c = squoteC
    · subst hsq
      simp only [List.cons_append, rpGo]
      rw [if_neg (by simp), if_neg (by simp [show ¬(squoteC = '\\') by decide]),
        if_neg (show ¬(squoteC = '"') by decide)]
      simp only [if_true]
      rw [key, ← harith]
    · simp only [List.cons_append, rpGo]
      rw [if_neg (by simp), if_neg (by simp [hc1.2]), if_neg hc1.1, if_neg hsq]
      simp only [if_true]
      rw [key, ← harith]

theorem dropWhile_len_le {α : Type} (p : α → Bool) : ∀ (l : List α),
    (l.dropWhile p).length ≤ l.length
  | [] => le_refl _
  | c :: rest => by
    rw [List.dropWhile_cons]
    split
    · exact le_trans (dropWhile_len_le p rest) (by simp)
    · exact le_refl _

theorem rpGo_fuel : ∀ (n : Nat) (s : Chars), s.length ≤ n → ∀ (st : RPSt) (f1 f2 : Nat),
    s.length < f1 → s.length < f2 → rpGo f1 st s = rpGo f2 st s
  | 0, s, hn, st, f1, f2, h1, h2 => by
    obtain ⟨a, rfl⟩ : ∃ a, f1 = a + 1 := ⟨f1 - 1, by omega⟩
    obtain ⟨b, rfl⟩ : ∃ b, f2 = b + 1 := ⟨f2 - 1, by omega⟩
    have : s = [] := List.length_eq_zero.mp (by omega)
    subst this
    simp [rpGo]
  | n + 1, s, hn, st, f1, f2, h1, h2 => by
    obtain ⟨a, rfl⟩ : ∃ a, f1 = a + 1 := ⟨f1 - 1, by omega⟩
    obtain ⟨b, rfl⟩ : ∃ b, f2 = b + 1 := ⟨f2 - 1, by omega⟩
    cases s with
    | nil => simp [rpGo]
    | cons c rest =>
      have hrn : rest.length ≤ n := by simp at hn; omega
      have hra : rest.length < a := by simp at h1; omega
      have hrb : rest.length < b := by simp at h2; omega
      simp only [rpGo]
      by_cases hesc : st.esc = true
      · rw [if_pos hesc, if_pos hesc, rpGo_fuel n rest hrn _ a b hra hrb]
      · rw [if_neg hesc, if_neg hesc]
        by_cases hbs : (decide (c = '\\') && st.inStr) = true
        · rw [if_pos hbs, if_pos hbs]
          by_cases hq : st.q = squoteC
          · rw [if_pos hq, if_pos hq, rpGo_fuel n rest hrn _ a b hra hrb]
          · rw [if_neg hq, if_neg hq, rpGo_fuel n rest hrn _ a b hra hrb]
        · rw [if_neg hbs, if_neg hbs]
          by_cases hdq : c = '"'
          · rw [if_pos hdq, if_pos hdq]
            by_cases hin : st.inStr = true
            · rw [if_pos hin, if_pos hin]
              by_cases hq : st.q = '"'
              · rw [if_pos hq, if_pos hq, rpGo_fuel n rest hrn _ a b hra hrb]
              · rw [if_neg hq, if_neg hq, rpGo_fuel n rest hrn _ a b hra hrb]
            · rw [if_neg hin, if_neg hin, rpGo_fuel n rest hrn _ a b hra hrb]
          · rw [if_neg hdq, if_neg hdq]
            by_cases hsq : c = squoteC
            · rw [if_pos hsq, if_pos hsq]
              by_cases hin : st.inStr = true
              · rw [if_pos hin, if_pos hin]
                by_cases hq : st.q = '"'
                · rw [if_pos hq, if_pos hq, rpGo_fuel n rest hrn _ a b hra hrb]
                · rw [if_neg hq, if_neg hq, rpGo_fuel n rest hrn _ a b hra hrb]
              · rw [if_neg hin, if_neg hin, rpGo_fuel n rest hrn _ a b hra hrb]
            · rw [if_neg hsq, if_neg hsq]
              by_cases hin : st.inStr = true
              · rw [if_pos hin, if_pos hin, rpGo_fuel n rest hrn _ a b hra hrb]
              · rw [if_neg hin, if_neg hin]
                by_cases hbr : (decide (c = '{') || decide (c = ',')) = true
                · rw [if_pos hbr, if_pos hbr]
                  have hlen1 := dropWhile_len_le isWs rest
                  cases hr1 : rest.dropWhile isWs with
                  | nil => rfl
                  | cons m r2 =>
                    rw [hr1] at hlen1
                    simp only [List.length_cons] at hlen1
                    dsimp only
                    by_cases hm1 : m = '"'
                    · rw [if_pos hm1, if_pos hm1,
                        rpGo_fuel n r2 (by omega) _ a b (by omega) (by omega)]
                    · rw [if_neg hm1, if_neg hm1]
                      by_cases hm2 : m = squoteC
                      · rw [if_pos hm2, if_pos hm2,
                          rpGo_fuel n r2 (by omega) _ a b (by omega) (by omega)]
                      · rw [if_neg hm2, if_neg hm2]
                        have hlen3 := dropWhile_len_le isWordC (m :: r2)
                        simp only [List.length_cons] at hlen3
                        by_cases hw1 : (m :: r2).takeWhile isWordC = []
                        · rw [if_pos hw1, if_pos hw1,
                            rpGo_fuel n (m :: r2) (by simp; omega) _ a b
                              (by simp; omega) (by simp; omega)]
                        · rw [if_neg hw1, if_neg hw1]
                          by_cases hw2 : isReserved ((m :: r2).takeWhile isWordC) = true
                          · rw [if_pos hw2, if_pos hw2,
                              rpGo_fuel n ((m :: r2).dropWhile isWordC) (by omega) _ a b
                                (by omega) (by omega)]
                          · rw [if_neg hw2, if_neg hw2,
                              rpGo_fuel n ((m :: r2).dropWhile isWordC) (by omega) _ a b
                                (by omega) (by omega)]
                · rw [if_neg hbr, if_neg hbr]
                  by_cases hn1 : (c :: rest).take 4 = "None".data
                  · rw [if_pos hn1, if_pos hn1,
                      rpGo_fuel n ((c :: rest).drop 4) (by simp; omega) _ a b
                        (by simp; omega) (by simp; omega)]
                  · rw [if_neg hn1, if_neg hn1]
                    by_cases hn2 : (c :: rest).take 4 = "True".data
                    · rw [if_pos hn2, if_pos hn2,
                        rpGo_fuel n ((c :: rest).drop 4) (by simp; omega) _ a b
                          (by simp; omega) (by simp; omega)]
                    · rw [if_neg hn2, if_neg hn2]
                      by_cases hn3 : (c :: rest).take 5 = "False".data
                      · rw [if_pos hn3, if_pos hn3,
                          rpGo_fuel n ((c :: rest).drop 5) (by simp; omega) _ a b
                            (by simp; omega) (by simp; omega)]
                      · rw [if_neg hn3, if_neg hn3,
                          rpGo_fuel n rest hrn _ a b hra hrb]

theorem rpGo_inert_one (c : Char) (rest : Chars) (had : Bool) (fuel : Nat)
    (hc : rpInertC c = true) :
    rpGo (fuel + 1) ⟨false, Char.ofNat 0, false, had⟩ (c :: rest)
      = (c :: (rpGo fuel ⟨false, Char.ofNat 0, false, had⟩ rest).1,
          (rpGo fuel ⟨false, Char.ofNat 0, false, had⟩ rest).2) := by
  simp only [rpInertC, Bool.and_eq_true, Bool.not_eq_true', decide_eq_false_iff_not] at hc
  obtain ⟨⟨⟨⟨⟨⟨⟨h1, h2⟩, h3⟩, h4⟩, h5⟩, h6⟩, h7⟩, h8⟩ := hc
  simp only [rpGo]
  rw [if_neg (by simp), if_neg (by simp [h1]), if_neg h2, if_neg h3,
    if_neg (by simp), if_neg (by simp [h4, h5]),
    if_neg (by intro h; simp [List.take] at h; exact h6 h.1),
    if_neg (by intro h; simp [List.take] at h; exact h7 h.1),
    if_neg (by intro h; simp [List.take] at h; exact h8 h.1)]

theorem rpGo_inert_list : ∀ (l : Chars) (rest : Chars) (had : Bool) (fuel fuel2 : Nat),
    l.all rpInertC = true → l.length + rest.length < fuel → rest.length < fuel2 →
    rpGo fuel ⟨false, Char.ofNat 0, false, had⟩ (l ++ rest)
      = (l ++ (rpGo fuel2 ⟨false, Char.ofNat 0, false, had⟩ rest).1,
          (rpGo fuel2 ⟨false, Char.ofNat 0, false, had⟩ rest).2)
  | [], rest, had, fuel, fuel2, _, hf, hf2 => by
    simp only [List.nil_append]
    rw [rpGo_fuel rest.length rest (le_refl _) _ fuel fuel2 (by omega) hf2]
  | c :: cs, rest, had, fuel, fuel2, hl, hf, hf2 => by
    obtain ⟨fuel, rfl⟩ : ∃ f, fuel = f + 1 := ⟨fuel - 1, by omega⟩
    simp only [List.all_cons, Bool.and_eq_true] at hl
    rw [List.cons_append, rpGo_inert_one c _ had fuel hl.1,
      rpGo_inert_list cs rest had fuel fuel2 hl.2 (by simp at hf; omega) hf2]
    rfl

/-- After a `{` or `,`, a double quote enters string state with both
characters emitted verbatim. -/
theorem rpGo_look_quote (b : Char) (r2 : Chars) (had : Bool) (fuel : Nat)
    (hb : b = '{' ∨ b = ',') :
    rpGo (fuel + 1) ⟨false, Char.ofNat 0, false, had⟩ (b :: '"' :: r2)
      = (b :: '"' :: (rpGo fuel ⟨true, '"', false, had⟩ r2).1,
          (rpGo fuel ⟨true, '"', false, had⟩ r2).2) := by
  have hbne : ¬(b = '"') := by rcases hb with rfl | rfl <;> decide
  have hbne2 : ¬(b = squoteC) := by rcases hb with rfl | rfl <;> decide
  have hbne3 : ¬(b = '\\') := by rcases hb with rfl | rfl <;> decide
  simp only [rpGo]
  rw [if_neg (by simp), if_neg (by simp [hbne3]), if_neg hbne, if_neg hbne2,
    if_neg (by simp), if_pos (by rcases hb with rfl | rfl <;> simp)]
  rw [List.takeWhile_cons_of_neg (by decide), List.dropWhile_cons_of_neg (by decide)]
  dsimp only
  rw [if_pos rfl]
  simp

/-- After a `{` or `,`, a non-quote non-word non-whitespace character leaves
the lookahead with nothing consumed beyond the opener. -/
theorem rpGo_look_safe (b m : Char) (r : Chars) (had : Bool) (fuel : Nat)
    (hb : b = '{' ∨ b = ',')
    (hm1 : isWs m = false) (hm2 : isWordC m = false) (hm3 : ¬(m = '"'))
    (hm4 : ¬(m = squoteC)) :
    rpGo (fuel + 1) ⟨false, Char.ofNat 0, false, had⟩ (b :: m :: r)
      = (b :: (rpGo fuel ⟨false, Char.ofNat 0, false, had⟩ (m :: r)).1,
          (rpGo fuel ⟨false, Char.ofNat 0, false, had⟩ (m :: r)).2) := by
  have hbne : ¬(b = '"') := by rcases hb with rfl | rfl <;> decide
  have hbne2 : ¬(b = squoteC) := by rcases hb with rfl | rfl <;> decide
  have hbne3 : ¬(b = '\\') := by rcases hb with rfl | rfl <;> decide
  simp only [rpGo]
  rw [if_neg (by simp), if_neg (by simp [hbne3]), if_neg hbne, if_neg hbne2,
    if_neg (by simp), if_pos (by rcases hb with rfl | rfl <;> simp)]
  rw [List.takeWhile_cons_of_neg (by simp [hm1]), List.dropWhile_cons_of_neg (by simp [hm1])]
  dsimp only
  rw [if_neg hm3, if_neg hm4, List.takeWhile_cons_of_neg (by simp [hm2]), if_pos rfl]
  simp

/-- In normal state a double quote opens a string. -/
theorem rpGo_quote_open (r : Chars) (had : Bool) (fuel : Nat) :
    rpGo (fuel + 1) ⟨false, Char.ofNat 0, false, had⟩ ('"' :: r)
      = ('"' :: (rpGo fuel ⟨true, '"', false, had⟩ r).1,
          (rpGo fuel ⟨true, '"', false, had⟩ r).2) := by
  simp [rpGo]

theorem ser_len_pos (v : JsonValue) : 1 ≤ (ser v).length := by
  cases v with
  | null => simp [ser]
  | bool b => cases b <;> simp [ser]
  | num q =>
    have := natChars_ne_nil q.num.natAbs
    simp only [ser]
    split
    · simp
    · cases h : natChars q.num.natAbs with
      | nil => exact absurd h this
      | cons a l => simp [h]
  | nanNum => simp [ser]
  | str s => simp [ser]
  | arr es => simp [ser]
  | obj ms => simp [ser]



theorem digit_rpInert (c : Char) (h : isDigitC c = true) : rpInertC c = true := by
  simp only [rpInertC, Bool.and_eq_true, Bool.not_eq_true', decide_eq_false_iff_not]
  exact ⟨⟨⟨⟨⟨⟨⟨digit_ne c h _ (by decide), digit_ne c h _ (by decide)⟩,
    digit_ne c h _ (by decide)⟩, digit_ne c h _ (by decide)⟩, digit_ne c h _ (by decide)⟩,
    digit_ne c h _ (by decide)⟩, digit_ne c h _ (by decide)⟩, digit_ne c h _ (by decide)⟩

theorem ser_num_inert (q : ℚ) : (ser (.num q)).all rpInertC = true := by
  have hd := natChars_digits q.num.natAbs
  simp only [ser]
  split
  · simp only [List.all_cons, Bool.and_eq_true]
    exact ⟨by decide, List.all_eq_true.mpr (fun c hc => digit_rpInert c (hd c hc))⟩
  · exact List.all_eq_true.mpr (fun c hc => digit_rpInert c (hd c hc))



theorem prod_sizeOf_eq (m : Chars × JsonValue) : sizeOf m = 1 + sizeOf m.1 + sizeOf m.2 := by
  cases m with
  | mk a b => simp

theorem streamOkElems_cons_elim (z : JsonValue) (zs : List JsonValue)
    (h : streamOkElems (z :: zs) = true) :
    (tailSafe z && streamOkB z && streamOkElems zs) = true := by
  simp only [streamOkElems, Bool.and_eq_true] at h ⊢
  exact ⟨⟨h.1.1, h.1.2⟩, h.2⟩

theorem streamOkMembers_cons_elim (m : Chars × JsonValue) (ms2 : List (Chars × JsonValue))
    (h : streamOkMembers (m :: ms2) = true) :
    (m.1.all plainChar && streamOkB m.2 && streamOkMembers ms2) = true := by
  cases m with
  | mk a b =>
    simp only [streamOkMembers, Bool.and_eq_true] at h ⊢
    exact ⟨⟨h.1.1.1, h.1.1.2⟩, h.2⟩

mutual

theorem rp_val : ∀ (v : JsonValue) (rest : Chars) (had : Bool) (fuel fuel2 : Nat),
    streamOkB v = true → (ser v).length + rest.length < fuel → rest.length < fuel2 →
    rpGo fuel ⟨false, Char.ofNat 0, false, had⟩ (ser v ++ rest)
      = (ser v ++ (rpGo fuel2 ⟨false, Char.ofNat 0, false, had⟩ rest).1,
          (rpGo fuel2 ⟨false, Char.ofNat 0, false, had⟩ rest).2)
  | .null, rest, had, fuel, fuel2, _, hf, hf2 =>
    rpGo_inert_list _ rest had fuel fuel2 (by decide) hf hf2
  | .bool true, rest, had, fuel, fuel2, _, hf, hf2 =>
    rpGo_inert_list _ rest had fuel fuel2 (by decide) hf hf2
  | .bool false, rest, had, fuel, fuel2, _, hf, hf2 =>
    rpGo_inert_list _ rest had fuel fuel2 (by decide) hf hf2
  | .nanNum, _, _, _, _, hv, _, _ => by simp [streamOkB] at hv
  | .num q, rest, had, fuel, fuel2, _, hf, hf2 =>
    rpGo_inert_list _ rest had fuel fuel2 (ser_num_inert q) hf hf2
  | .str s, rest, had, fuel, fuel2, hv, hf, hf2 => by
    have hpl : ∀ c ∈ s, plainChar c = true := by
      simpa [streamOkB, List.all_eq_true] using hv
    have hne : ∀ c ∈ s, c ≠ '"' ∧ c ≠ '\\' :=
      fun c hc => ⟨(plainChar_ne c (hpl c hc)).1, (plainChar_ne c (hpl c hc)).2.1⟩
    obtain ⟨f, rfl⟩ : ∃ f, fuel = f + 1 := ⟨fuel - 1, by omega⟩
    show rpGo (f + 1) _ ('"' :: (s ++ ['"']) ++ rest) = _
    rw [List.cons_append, rpGo_quote_open]
    rw [show (s ++ ['"']) ++ rest = s ++ '"' :: rest by simp]
    rw [rpGo_dquote_body s rest ⟨true, '"', false, had⟩ f rfl rfl rfl hne
      (by simp [ser] at hf; omega)]
    simp only
    rw [rpGo_fuel rest.length rest (le_refl _) _ (f - (s.length + 1)) fuel2
      (by simp [ser] at hf; omega) hf2]
    simp [ser]
  | .arr [], rest, had, fuel, fuel2, _, hf, hf2 => by
    show rpGo fuel _ (('[' :: [']']) ++ rest) = _
    exact rpGo_inert_list ['[', ']'] rest had fuel fuel2 (by decide)
      (by simp [ser, serElems] at hf; simpa using hf) hf2
  | .arr (x :: xs), rest, had, fuel, fuel2, hv, hf, hf2 => by
    have hx : streamOkB x = true ∧ streamOkElems xs = true := by
      simpa [streamOkB, Bool.and_eq_true] using hv
    obtain ⟨f, rfl⟩ : ∃ f, fuel = f + 1 := ⟨fuel - 1, by omega⟩
    show rpGo (f + 1) _ ('[' :: (serElems (x :: xs) ++ [']']) ++ rest) = _
    rw [List.cons_append, rpGo_inert_one '[' _ had f (by decide)]
    rw [show (serElems (x :: xs) ++ [']']) ++ rest = serElems (x :: xs) ++ ']' :: rest by simp]
    cases xs with
    | nil =>
      rw [show serElems [x] = ser x from by simp [serElems]]
      rw [rp_val x (']' :: rest) had f (fuel2 + 1) hx.1
        (by simp [ser, serElems] at hf; simp; omega) (by simp; omega)]
      rw [show (']' :: rest : Chars) = [']'] ++ rest from rfl,
        rpGo_inert_list [']'] rest had (fuel2 + 1) fuel2 (by decide) (by simp; omega) hf2]
      simp [ser, serElems]
    | cons y ys =>
      have hlen2 : (serElems (x :: y :: ys)).length
          = (ser x).length + 1 + (serElems (y :: ys)).length := by
        simp [serElems]; omega
      rw [show serElems (x :: y :: ys) = ser x ++ ',' :: serElems (y :: ys) from by
        simp [serElems]]
      rw [show (ser x ++ ',' :: serElems (y :: ys)) ++ ']' :: rest
        = ser x ++ (',' :: (serElems (y :: ys) ++ ']' :: rest)) by simp]
      rw [rp_val x (',' :: (serElems (y :: ys) ++ ']' :: rest)) had f
        ((',' :: (serElems (y :: ys) ++ ']' :: rest)).length + 1) hx.1
        (by simp [ser] at hf; simp; omega) (by omega)]
      rw [rp_elemsTail y ys (']' :: rest) had
        ((',' :: (serElems (y :: ys) ++ ']' :: rest)).length + 1) (fuel2 + 1)
        (streamOkElems_cons_elim y ys hx.2)
        (by simp only [List.length_cons, List.length_append]; omega) (by simp; omega)]
      rw [show (']' :: rest : Chars) = [']'] ++ rest from rfl,
        rpGo_inert_list [']'] rest had (fuel2 + 1) fuel2 (by decide) (by simp; omega) hf2]
      simp [ser, serElems]
  | .obj [], rest, had, fuel, fuel2, _, hf, hf2 => by
    obtain ⟨f, rfl⟩ : ∃ f, fuel = f + 1 := ⟨fuel - 1, by omega⟩
    show rpGo (f + 1) _ ('{' :: (serMembers [] ++ ['}']) ++ rest) = _
    simp only [serMembers, List.nil_append]
    show rpGo (f + 1) _ ('{' :: '}' :: rest) = _
    rw [rpGo_look_safe '{' '}' rest had f (Or.inl rfl)
      (by decide) (by decide) (by decide) (by decide)]
    rw [show ('}' :: rest : Chars) = ['}'] ++ rest from rfl,
      rpGo_inert_list ['}'] rest had f fuel2 (by decide)
        (by simp [ser, serMembers] at hf; simp; omega) hf2]
    simp [ser, serMembers]
  | .obj ((k, val) :: ms), rest, had, fuel, fuel2, hv, hf, hf2 => by
    have hm : k.all plainChar = true ∧ streamOkB val = true ∧ streamOkMembers ms = true := by
      simp only [streamOkB, streamOkMembers, Bool.and_eq_true] at hv
      exact ⟨hv.1.1.1, hv.1.1.2, hv.2⟩
    have hne : ∀ c ∈ k, c ≠ '"' ∧ c ≠ '\\' :=
      fun c hc => ⟨(plainChar_ne c (List.all_eq_true.mp hm.1 c hc)).1,
        (plainChar_ne c (List.all_eq_true.mp hm.1 c hc)).2.1⟩
    cases ms with
    | nil =>
      have hlen : (ser (.obj [(k, val)])).length = k.length + 5 + (ser val).length := by
        simp [ser, serMembers]; omega
      rw [show ser (.obj [(k, val)]) ++ rest
        = '{' :: '"' :: (k ++ '"' :: ':' :: (ser val ++ '}' :: rest)) from by
          simp [ser, serMembers]]
      obtain ⟨f, rfl⟩ : ∃ f, fuel = f + 1 := ⟨fuel - 1, by omega⟩
      rw [rpGo_look_quote '{' _ had f (Or.inl rfl)]
      rw [show (k ++ '"' :: ':' :: (ser val ++ '}' :: rest))
        = k ++ '"' :: (':' :: (ser val ++ '}' :: rest)) from rfl]
      rw [rpGo_dquote_body k _ ⟨true, '"', false, had⟩ f rfl rfl rfl hne (by omega)]
      simp only
      obtain ⟨g, hg⟩ : ∃ g, f - (k.length + 1) = g + 1 := ⟨f - (k.length + 1) - 1, by omega⟩
      rw [hg, rpGo_inert_one ':' _ had g (by decide)]
      rw [rp_val val ('}' :: rest) had g (fuel2 + 1) hm.2.1 (by simp; omega)
        (by simp; omega)]
      rw [show ('}' :: rest : Chars) = ['}'] ++ rest from rfl,
        rpGo_inert_list ['}'] rest had (fuel2 + 1) fuel2 (by decide) (by simp; omega) hf2]
      simp [ser, serMembers]
    | cons m ms2 =>
      have hlen : (ser (.obj ((k, val) :: m :: ms2))).length
          = k.length + 5 + (ser val).length + 1 + (serMembers (m :: ms2)).length := by
        cases m with
        | mk a b => simp [ser, serMembers]; omega
      rw [show ser (.obj ((k, val) :: m :: ms2)) ++ rest
        = '{' :: '"' :: (k ++ '"' :: (':' :: (ser val
            ++ ',' :: (serMembers (m :: ms2) ++ '}' :: rest)))) from by
          cases m with
          | mk a b => simp [ser, serMembers]]
      obtain ⟨f, rfl⟩ : ∃ f, fuel = f + 1 := ⟨fuel - 1, by omega⟩
      rw [rpGo_look_quote '{' _ had f (Or.inl rfl)]
      rw [rpGo_dquote_body k _ ⟨true, '"', false, had⟩ f rfl rfl rfl hne (by omega)]
      simp only
      obtain ⟨g, hg⟩ : ∃ g, f - (k.length + 1) = g + 1 := ⟨f - (k.length + 1) - 1, by omega⟩
      rw [hg, rpGo_inert_one ':' _ had g (by decide)]
      rw [rp_val val (',' :: (serMembers (m :: ms2) ++ '}' :: rest)) had g
        ((',' :: (serMembers (m :: ms2) ++ '}' :: rest)).length + 1) hm.2.1
        (by simp; omega) (by omega)]
      rw [show ((k, val) :: m :: ms2 : List (Chars × JsonValue))
        = (k, val) :: (m.1, m.2) :: ms2 from by simp] at hlen ⊢
      rw [rp_membersTail m.1 m.2 ms2 ('}' :: rest) had
        ((',' :: (serMembers ((m.1, m.2) :: ms2) ++ '}' :: rest)).length + 1) (fuel2 + 1)
        (streamOkMembers_cons_elim (m.1, m.2) ms2 (by simpa using hm.2.2))
        (by simp only [List.length_cons, List.length_append]; omega) (by simp; omega)]
      rw [show ('}' :: rest : Chars) = ['}'] ++ rest from rfl,
        rpGo_inert_list ['}'] rest had (fuel2 + 1) fuel2 (by decide) (by simp; omega) hf2]
      simp [ser, serMembers]
  termination_by v _ _ _ _ _ _ _ => sizeOf v
  decreasing_by
  all_goals simp_wf
  all_goals (try simp [*, prod_sizeOf_eq])
  all_goals omega

theorem rp_elemsTail : ∀ (y : JsonValue) (ys : List JsonValue) (rest : Chars) (had : Bool)
    (fuel fuel2 : Nat),
    (tailSafe y && streamOkB y && streamOkElems ys) = true →
    1 + (serElems (y :: ys)).length + rest.length < fuel → rest.length < fuel2 →
    rpGo fuel ⟨false, Char.ofNat 0, false, had⟩ (',' :: (serElems (y :: ys) ++ rest))
      = (',' :: (serElems (y :: ys)
            ++ (rpGo fuel2 ⟨false, Char.ofNat 0, false, had⟩ rest).1),
          (rpGo fuel2 ⟨false, Char.ofNat 0, false, had⟩ rest).2)
  | y, ys, rest, had, fuel, fuel2, hv, hf, hf2 => by
    have hts : tailSafe y = true ∧ streamOkB y = true ∧ streamOkElems ys = true := by
      simp only [Bool.and_eq_true] at hv
      exact ⟨hv.1.1, hv.1.2, hv.2⟩
    obtain ⟨f, rfl⟩ : ∃ f, fuel = f + 1 := ⟨fuel - 1, by omega⟩
    have hhead : (∃ s, y = .str s) ∨
        (∃ mh tl, ser y = mh :: tl ∧ isWs mh = false ∧ isWordC mh = false ∧
          ¬(mh = '"') ∧ ¬(mh = squoteC)) := by
      cases y with
      | null => exact absurd hts.1 (by decide)
      | bool b => cases b <;> exact absurd hts.1 (by decide)
      | nanNum => exact absurd hts.1 (by decide)
      | str s => exact Or.inl ⟨s, rfl⟩
      | arr es => exact Or.inr ⟨'[', serElems es ++ [']'], by simp [ser], by decide,
          by decide, by decide, by decide⟩
      | obj ms => exact Or.inr ⟨'{', serMembers ms ++ ['}'], by simp [ser], by decide,
          by decide, by decide, by decide⟩
      | num q => exact Or.inr ⟨'-', natChars q.num.natAbs, by
          have : q.num < 0 := by simpa [tailSafe] using hts.1
          simp [ser, this], by decide, by decide, by decide, by decide⟩
    rcases hhead with ⟨s, rfl⟩ | ⟨mh, tl, hser, hw1, hw2, hw3, hw4⟩
    · -- string element: the comma lookahead consumes the quote
      have hpl : ∀ c ∈ s, plainChar c = true := by
        simpa [streamOkB, List.all_eq_true] using hts.2.1
      have hne : ∀ c ∈ s, c ≠ '"' ∧ c ≠ '\\' :=
        fun c hc => ⟨(plainChar_ne c (hpl c hc)).1, (plainChar_ne c (hpl c hc)).2.1⟩
      cases ys with
      | nil =>
        rw [show serElems [JsonValue.str s] ++ rest = '"' :: (s ++ '"' :: rest) from by
          simp [serElems, ser]]
        rw [rpGo_look_quote ',' _ had f (Or.inr rfl)]
        rw [rpGo_dquote_body s rest ⟨true, '"', false, had⟩ f rfl rfl rfl hne
          (by simp [serElems, ser] at hf; omega)]
        simp only
        rw [rpGo_fuel rest.length rest (le_refl _) _ (f - (s.length + 1)) fuel2
          (by simp [serElems, ser] at hf; omega) hf2]
        simp [serElems, ser]
      | cons z zs =>
        have hlen2 : (serElems (JsonValue.str s :: z :: zs)).length
            = s.length + 3 + (serElems (z :: zs)).length := by
          simp [serElems, ser]; omega
        rw [show serElems (JsonValue.str s :: z :: zs) ++ rest
          = '"' :: (s ++ '"' :: (',' :: (serElems (z :: zs) ++ rest))) from by
            simp [serElems, ser]]
        rw [rpGo_look_quote ',' _ had f (Or.inr rfl)]
        rw [rpGo_dquote_body s _ ⟨true, '"', false, had⟩ f rfl rfl rfl hne (by omega)]
        simp only
        obtain ⟨g, hg⟩ : ∃ g, f - (s.length + 1) = g + 1 :=
          ⟨f - (s.length + 1) - 1, by omega⟩
        rw [hg]
        rw [rp_elemsTail z zs rest had (g + 1) fuel2
          (streamOkElems_cons_elim z zs hts.2.2)
          (by omega) hf2]
        simp [serElems, ser]
    · -- non-string tail-safe element: the lookahead does not consume
      cases ys with
      | nil =>
        rw [show serElems [y] ++ rest = ser y ++ rest from by simp [serElems]]
        rw [show ser y ++ rest = mh :: (tl ++ rest) from by rw [hser]; simp]
        rw [rpGo_look_safe ',' mh (tl ++ rest) had f (Or.inr rfl) hw1 hw2 hw3 hw4]
        rw [show (mh :: (tl ++ rest) : Chars) = ser y ++ rest from by rw [hser]; simp]
        rw [rp_val y rest had f fuel2 hts.2.1 (by simp [serElems] at hf; omega) hf2]
        simp [serElems]
      | cons z zs =>
        have hlen2 : (serElems (y :: z :: zs)).length
            = (ser y).length + 1 + (serElems (z :: zs)).length := by
          simp [serElems]; omega
        rw [show serElems (y :: z :: zs) ++ rest
          = ser y ++ (',' :: (serElems (z :: zs) ++ rest)) from by simp [serElems]]
        rw [show ser y ++ (',' :: (serElems (z :: zs) ++ rest))
          = mh :: (tl ++ (',' :: (serElems (z :: zs) ++ rest))) from by rw [hser]; simp]
        rw [rpGo_look_safe ',' mh _ had f (Or.inr rfl) hw1 hw2 hw3 hw4]
        rw [show (mh :: (tl ++ (',' :: (serElems (z :: zs) ++ rest))) : Chars)
          = ser y ++ (',' :: (serElems (z :: zs) ++ rest)) from by rw [hser]; simp]
        rw [rp_val y (',' :: (serElems (z :: zs) ++ rest)) had f
          ((',' :: (serElems (z :: zs) ++ rest)).length + 1) hts.2.1
          (by simp at hf ⊢; omega) (by omega)]
        rw [rp_elemsTail z zs rest had ((',' :: (serElems (z :: zs) ++ rest)).length + 1)
          fuel2 (streamOkElems_cons_elim z zs hts.2.2)
          (by simp only [List.length_cons, List.length_append]; omega) hf2]
        simp [serElems]
  termination_by y ys _ _ _ _ _ _ _ => sizeOf y + sizeOf ys + 1
  decreasing_by
  all_goals simp_wf
  all_goals (try simp [*, prod_sizeOf_eq])
  all_goals omega

theorem rp_membersTail : ∀ (k2 : Chars) (v2 : JsonValue) (ms : List (Chars × JsonValue))
    (rest : Chars) (had : Bool) (fuel fuel2 : Nat),
    (k2.all plainChar && streamOkB v2 && streamOkMembers ms) = true →
    1 + (serMembers ((k2, v2) :: ms)).length + rest.length < fuel → rest.length < fuel2 →
    rpGo fuel ⟨false, Char.ofNat 0, false, had⟩ (',' :: (serMembers ((k2, v2) :: ms) ++ rest))
      = (',' :: (serMembers ((k2, v2) :: ms)
            ++ (rpGo fuel2 ⟨false, Char.ofNat 0, false, had⟩ rest).1),
          (rpGo fuel2 ⟨false, Char.ofNat 0, false, had⟩ rest).2)
  | k2, v2, ms, rest, had, fuel, fuel2, hv, hf, hf2 => by
    have hm : k2.all plainChar = true ∧ streamOkB v2 = true ∧ streamOkMembers ms = true := by
      simp only [Bool.and_eq_true] at hv
      exact ⟨hv.1.1, hv.1.2, hv.2⟩
    have hne : ∀ c ∈ k2, c ≠ '"' ∧ c ≠ '\\' :=
      fun c hc => ⟨(plainChar_ne c (List.all_eq_true.mp hm.1 c hc)).1,
        (plainChar_ne c (List.all_eq_true.mp hm.1 c hc)).2.1⟩
    obtain ⟨f, rfl⟩ : ∃ f, fuel = f + 1 := ⟨fuel - 1, by omega⟩
    cases ms with
    | nil =>
      have hlen : (serMembers [(k2, v2)]).length = k2.length + 3 + (ser v2).length := by
        simp [serMembers]; omega
      rw [show serMembers [(k2, v2)] ++ rest
        = '"' :: (k2 ++ '"' :: (':' :: (ser v2 ++ rest))) from by simp [serMembers]]
      rw [rpGo_look_quote ',' _ had f (Or.inr rfl)]
      rw [rpGo_dquote_body k2 _ ⟨true, '"', false, had⟩ f rfl rfl rfl hne (by omega)]
      simp only
      obtain ⟨g, hg⟩ : ∃ g, f - (k2.length + 1) = g + 1 := ⟨f - (k2.length + 1) - 1, by omega⟩
      rw [hg, rpGo_inert_one ':' _ had g (by decide)]
      rw [rp_val v2 rest had g fuel2 hm.2.1 (by omega) hf2]
      simp [serMembers]
    | cons m ms2 =>
      have hlen : (serMembers ((k2, v2) :: m :: ms2)).length
          = k2.length + 3 + (ser v2).length + 1 + (serMembers (m :: ms2)).length := by
        cases m with
        | mk a b => simp [serMembers]; omega
      rw [show serMembers ((k2, v2) :: m :: ms2) ++ rest
        = '"' :: (k2 ++ '"' :: (':' :: (ser v2
            ++ ',' :: (serMembers (m :: ms2) ++ rest)))) from by
          cases m with
          | mk a b => simp [serMembers]]
      rw [rpGo_look_quote ',' _ had f (Or.inr rfl)]
      rw [rpGo_dquote_body k2 _ ⟨true, '"', false, had⟩ f rfl rfl rfl hne (by omega)]
      simp only
      obtain ⟨g, hg⟩ : ∃ g, f - (k2.length + 1) = g + 1 := ⟨f - (k2.length + 1) - 1, by omega⟩
      rw [hg, rpGo_inert_one ':' _ had g (by decide)]
      rw [rp_val v2 (',' :: (serMembers (m :: ms2) ++ rest)) had g
        ((',' :: (serMembers (m :: ms2) ++ rest)).length + 1) hm.2.1
        (by simp; omega) (by omega)]
      rw [show (m :: ms2 : List (Chars × JsonValue)) = (m.1, m.2) :: ms2 from by simp]
        at hlen ⊢
      rw [rp_membersTail m.1 m.2 ms2 rest had
        ((',' :: (serMembers ((m.1, m.2) :: ms2) ++ rest)).length + 1) fuel2
        (streamOkMembers_cons_elim (m.1, m.2) ms2 (by simpa using hm.2.2))
        (by simp only [List.length_cons, List.length_append]; omega) hf2]
      simp [serMembers]
  termination_by _ v2 ms _ _ _ _ _ _ => sizeOf v2 + sizeOf ms + 1
  decreasing_by
  all_goals simp_wf
  all_goals (try simp [*, prod_sizeOf_eq])
  all_goals omega

end

/-! ## The claims -/

/-- Claim C1: for every input string, every public operation (`parse`,
`extract`, `extractAll`, `repair`, `parsePartial`, and the streaming
session's `write`/`finish`/`reset`) returns a tagged result value
(`Success`/`Failure`, `ExtractResult`, or `RepairResult`) and never raises
an exception: each embedded operation is total and yields one of the tagged
shapes. -/
theorem claim_C1 (input chunk : Chars) (options : Option PartialParseOptions) (st : SessSt) :
    ((∃ d w, parse input = .success d w) ∨ (∃ e p, parse input = .failure e p)) ∧
    ((∃ d w, parsePartial input options = .success d w) ∨
      (∃ e p, parsePartial input options = .failure e p)) ∧
    ((∃ d w, (sWrite st chunk).2 = .success d w) ∨ (∃ e p, (sWrite st chunk).2 = .failure e p)) ∧
    ((∃ d w, sFinish st = .success d w) ∨ (∃ e p, sFinish st = .failure e p)) ∧
    ((extract input).json = none ∨ ∃ j, (extract input).json = some j) ∧
    ((extractAll input).json = none ∨ ∃ j, (extractAll input).json = some j) ∧
    (∃ o w v, repair input = ⟨o, w, v⟩) ∧
    sReset = sessInit := by
  refine ⟨resultTagged _, resultTagged _, resultTagged _, resultTagged _, ?_, ?_, ?_, rfl⟩
  · cases h : (extract input).json with
    | none => exact Or.inl rfl
    | some j => exact Or.inr ⟨j, rfl⟩
  · cases h : (extractAll input).json with
    | none => exact Or.inl rfl
    | some j => exact Or.inr ⟨j, rfl⟩
  · exact ⟨(repair input).output, (repair input).warnings, (repair input).valid, rfl⟩

/-- Claim C9: after any sequence of `write` calls, the tracked `depth`,
in-string flag, pending-escape flag and `started` flag equal exactly the
values obtained by scanning the entire accumulated buffer once from
position 0 with the same character-level rules. -/
theorem claim_C9 (chunks : List Chars) :
    (writesFold chunks).buf = chunks.flatten ∧
    (writesFold chunks).depth
      = ((writesFold chunks).buf.foldl sessStep sessInit).depth ∧
    (writesFold chunks).inStr
      = ((writesFold chunks).buf.foldl sessStep sessInit).inStr ∧
    (writesFold chunks).esc
      = ((writesFold chunks).buf.foldl sessStep sessInit).esc ∧
    (writesFold chunks).started
      = ((writesFold chunks).buf.foldl sessStep sessInit).started := by
  have h := writes_acc chunks sessInit
  simp only [writesFold, h]
  simp [foldl_sessStep_buf, sessInit]

/-- Claim C10: whenever the strict parse of the input succeeds,
`parsePartial` returns `Success` with exactly the strict-parse value, for
every combination of the partial-allow flags (the relaxed grammar is only
consulted after strict parsing fails). -/
theorem claim_C10 (s : Chars) (options : Option PartialParseOptions) (v : JsonValue)
    (h : jsonParse s = .ok v) : parsePartial s options = .success v none := by
  cases s with
  | nil => simp [jsonParse, jpValue] at h
  | cons c cs =>
    simp only [parsePartial, h]
    rfl

theorem claim_C10_witness :
    jsonParse "\x7b\"a\":[1,true]\x7d".data
      = .ok (.obj [("a".data, .arr [.num 1, .bool true])]) ∧
    parsePartial "\x7b\"a\":[1,true]\x7d".data
        (some ⟨some false, some false, some false, some false⟩)
      = .success (.obj [("a".data, .arr [.num 1, .bool true])]) none :=
  ⟨by decide, claim_C10 _ _ _ (by decide)⟩

/-- Claim C6, corrected: `finish()` fails with `no_json_found` when no
opening bracket was ever seen, and fails with `truncated` when `started`
and the depth is *positive* (not merely nonzero — see the counterexample)
or the in-string flag is set. -/
theorem claim_C6 (chunks : List Chars) :
    ((writesFold chunks).started = false →
      sFinish (writesFold chunks) = .failure ⟨.no_json_found, "No JSON found".data⟩ none) ∧
    ((writesFold chunks).started = true →
      (0 < (writesFold chunks).depth ∨ (writesFold chunks).inStr = true) →
      sFinish (writesFold chunks) = .failure ⟨.truncated, "Incomplete JSON".data⟩ none) := by
  constructor
  · intro h
    simp [sFinish, h]
  · intro h hd
    simp only [sFinish, h, Bool.not_true]
    rw [if_neg (by simp)]
    rw [if_pos (by simpa using hd)]

theorem claim_C6_witness :
    sFinish (writesFold []) = .failure ⟨.no_json_found, "No JSON found".data⟩ none ∧
    sFinish (writesFold ["\x7b".data]) = .failure ⟨.truncated, "Incomplete JSON".data⟩ none :=
  ⟨(claim_C6 []).1 (by decide), (claim_C6 ["\x7b".data]).2 (by decide) (by decide)⟩

/-- Claim C6 counterexample: after writing `[]]` the session has
`started = true` and `depth = -1 ≠ 0`, yet `finish()` does not fail with
`truncated` — it returns a `Success` (the source tests `depth > 0`, the
claim says `depth != 0`). -/
theorem claim_C6_cex :
    (sWrite sReset "[]]".data).1.started = true ∧
    (sWrite sReset "[]]".data).1.depth = -1 ∧
    (sWrite sReset "[]]".data).1.inStr = false ∧
    sFinish (sWrite sReset "[]]".data).1 = .success (.arr []) none := by
  decide

/-- Claim C3 counterexample: the text `} {"a":1}` contains exactly one
syntactically valid bracketed JSON value, `{"a":1}`, yet `extract` returns
no candidate at all (the stray leading `}` drives the depth negative) and
`parse` fails with `no_json_found` instead of succeeding. -/
theorem claim_C3_cex :
    (extract "\x7d \x7b\"a\":1\x7d".data).json = none ∧
    parse "\x7d \x7b\"a\":1\x7d".data
      = .failure ⟨.no_json_found, "No JSON found".data⟩ none := by
  decide

/-- Claim C4 counterexample: for `s = ['a\/\/b']` one repair pass yields the
strictly valid output `["a//b"]` (so the claim's hypothesis holds), but a
second repair strips the `//` inside the string as a line comment, so
`repair` is not idempotent on this output. -/
theorem claim_C4_cex :
    (repair "['a\\/\\/b']".data).valid = true ∧
    (repair "['a\\/\\/b']".data).output = "[\"a//b\"]".data ∧
    (repair (repair "['a\\/\\/b']".data).output).output = "[\"a".data ∧
    (repair (repair "['a\\/\\/b']".data).output).output ≠ (repair "['a\\/\\/b']".data).output := by
  refine ⟨by decide, by decide, by decide, by decide⟩

/-- Claim C5 counterexample: `{"a":1}` is strictly valid and its prefix
`{"a":` ends exactly at a token boundary (after the colon token), yet
`parsePartial` with all four partial-allow flags enabled returns a
`truncated` Failure. -/
theorem claim_C5_cex :
    jsonParse "\x7b\"a\":1\x7d".data = .ok (.obj [("a".data, .num 1)]) ∧
    parsePartial "\x7b\"a\":".data (some ⟨some true, some true, some true, some true⟩)
      = .failure ⟨.truncated, "Unexpected token at end of input".data⟩
          (some ⟨.medium, .obj [], []⟩) := by
  decide

/-- Claim C7 counterexample: the input `{"a":"x//y"}` carries `x//y` inside
a double-quoted string, but `repair` textually strips `//y"}` as a line
comment before the quote-aware pass, so the string content is not
reproduced in the output. -/
theorem claim_C7_cex :
    List.IsInfix "x//y".data "\x7b\"a\":\"x//y\"\x7d".data ∧
    (repair "\x7b\"a\":\"x//y\"\x7d".data).output = "\x7b\"a\":\"x".data ∧
    ¬ List.IsInfix "x//y".data (repair "\x7b\"a\":\"x//y\"\x7d".data).output := by
  refine ⟨by decide, by decide, by decide⟩

/-- Claim C7, corrected: within the quote-aware `repairPass` scanner itself,
the content of a double-quote-delimited string (any characters that are not
an unescaped quote or backslash — in particular apostrophes) is reproduced
unchanged through the closing quote; the counterexample shows the earlier
textual comment/fence stripping can still alter string contents. -/
theorem claim_C7 (content rest : Chars) (st : RPSt) (fuel : Nat)
    (hin : st.inStr = false) (hesc : st.esc = false)
    (hc : ∀ c ∈ content, c ≠ '"' ∧ c ≠ '\\')
    (hf : content.length + 2 ≤ fuel) :
    rpGo fuel st ('"' :: (content ++ '"' :: rest)) =
      (('"' :: (content ++ '"' :: (rpGo (fuel - (content.length + 2))
          ⟨false, Char.ofNat 0, false, st.had⟩ rest).1)),
        (rpGo (fuel - (content.length + 2)) ⟨false, Char.ofNat 0, false, st.had⟩ rest).2) := by
  obtain ⟨fuel, rfl⟩ : ∃ f, fuel = f + 1 := ⟨fuel - 1, by omega⟩
  obtain ⟨i, q, e, h⟩ := st
  simp only at hin hesc
  subst hin hesc
  simp only [rpGo]
  rw [if_neg (by simp), if_neg (by simp)]
  simp only [if_true, show (false = true) = False by simp, if_false]
  have key := rpGo_dquote_body content rest ⟨true, '"', false, h⟩ fuel rfl rfl rfl hc
    (by omega)
  simp only at key
  rw [key]
  have : fuel - (content.length + 1) = fuel + 1 - (content.length + 2) := by omega
  rw [this]

theorem claim_C7_witness :
    rpGo 20 rpInit ('"' :: ("it's".data ++ '"' :: ":1".data)) =
      (('"' :: ("it's".data ++ '"' :: (rpGo 14 ⟨false, Char.ofNat 0, false, false⟩ ":1".data).1)),
        (rpGo 14 ⟨false, Char.ofNat 0, false, false⟩ ":1".data).2) :=
  claim_C7 "it's".data ":1".data rpInit 20 rfl rfl (by decide) (by decide)

/-- Claim C8 counterexample: in `[1,None]` the bare `None` sits outside any
string, yet the repair output is `[1]` — the token is silently dropped by
the post-comma key scan (and the then-dangling comma removed), with no
`null` emitted and no `python_literal_converted` warning. -/
theorem claim_C8_cex :
    (repair "[1,None]".data).output = "[1]".data ∧
    (repair "[1,None]".data).warnings = [⟨.trailing_comma_removed, []⟩] ∧
    ¬ List.IsInfix "null".data (repair "[1,None]".data).output ∧
    (∀ w ∈ (repair "[1,None]".data).warnings, w.code ≠ .python_literal_converted) := by
  refine ⟨by decide, by decide, by decide, by decide⟩

/-- Claim C8, corrected: when the main `repairPass` scanner reaches a bare
`None`/`True`/`False` outside a string it emits `null`/`true`/`false` plus
one `python_literal_converted` warning per occurrence — but a token sitting
directly after a `{` or `,` is consumed by the key scan and silently
dropped, with no conversion and no warning. -/
theorem claim_C8 (st : RPSt) (q : Chars) (fuel : Nat)
    (hin : st.inStr = false) (hesc : st.esc = false)
    (hq : q.takeWhile isWordC = []) :
    (rpGo (fuel + 1) st ("None".data ++ q) =
      ("null".data ++ (rpGo fuel st q).1,
        ⟨.python_literal_converted, []⟩ :: (rpGo fuel st q).2.1, (rpGo fuel st q).2.2)) ∧
    (rpGo (fuel + 1) st ("True".data ++ q) =
      ("true".data ++ (rpGo fuel st q).1,
        ⟨.python_literal_converted, []⟩ :: (rpGo fuel st q).2.1, (rpGo fuel st q).2.2)) ∧
    (rpGo (fuel + 1) st ("False".data ++ q) =
      ("false".data ++ (rpGo fuel st q).1,
        ⟨.python_literal_converted, []⟩ :: (rpGo fuel st q).2.1, (rpGo fuel st q).2.2)) ∧
    (rpGo (fuel + 1) st (',' :: ("None".data ++ q)) =
      (',' :: (rpGo fuel st q).1, (rpGo fuel st q).2.1, (rpGo fuel st q).2.2)) := by
  obtain ⟨i, sq, e, h⟩ := st
  simp only at hin hesc
  subst hin hesc
  have hqd := dropWhile_of_takeWhile_nil isWordC q hq
  refine ⟨?_, ?_, ?_, ?_⟩
  · show rpGo (fuel + 1) _ ('N' :: ('o' :: 'n' :: 'e' :: q)) = _
    simp only [rpGo]
    rw [if_neg (by simp), if_neg (by simp), if_neg (by decide), if_neg (by decide),
      if_neg (by simp), if_neg (by decide),
      if_pos (show List.take 4 ('N' :: 'o' :: 'n' :: 'e' :: q) = "None".data by simp)]
    simp [List.drop]
  · show rpGo (fuel + 1) _ ('T' :: ('r' :: 'u' :: 'e' :: q)) = _
    simp only [rpGo]
    rw [if_neg (by simp), if_neg (by simp), if_neg (by decide), if_neg (by decide),
      if_neg (by simp), if_neg (by decide),
      if_neg (show ¬(List.take 4 ('T' :: 'r' :: 'u' :: 'e' :: q) = "None".data) by simp),
      if_pos (show List.take 4 ('T' :: 'r' :: 'u' :: 'e' :: q) = "True".data by simp)]
    simp [List.drop]
  · show rpGo (fuel + 1) _ ('F' :: ('a' :: 'l' :: 's' :: 'e' :: q)) = _
    simp only [rpGo]
    rw [if_neg (by simp), if_neg (by simp), if_neg (by decide), if_neg (by decide),
      if_neg (by simp), if_neg (by decide),
      if_neg (show ¬(List.take 4 ('F' :: 'a' :: 'l' :: 's' :: 'e' :: q) = "None".data) by simp),
      if_neg (show ¬(List.take 4 ('F' :: 'a' :: 'l' :: 's' :: 'e' :: q) = "True".data) by simp),
      if_pos (show List.take 5 ('F' :: 'a' :: 'l' :: 's' :: 'e' :: q) = "False".data by simp)]
    simp [List.drop]
  · show rpGo (fuel + 1) _ (',' :: ('N' :: 'o' :: 'n' :: 'e' :: q)) = _
    simp only [rpGo]
    rw [if_neg (by simp), if_neg (by simp), if_neg (by decide), if_neg (by decide),
      if_neg (by simp), if_pos (by decide)]
    have h1 : List.takeWhile isWs ('N' :: 'o' :: 'n' :: 'e' :: q) = [] :=
      List.takeWhile_cons_of_neg (by decide)
    have h2 : List.dropWhile isWs ('N' :: 'o' :: 'n' :: 'e' :: q)
        = 'N' :: 'o' :: 'n' :: 'e' :: q :=
      List.dropWhile_cons_of_neg (by decide)
    have h3 : List.takeWhile isWordC ('N' :: 'o' :: 'n' :: 'e' :: q)
        = "None".data ++ List.takeWhile isWordC q :=
      takeWhile_app isWordC "None".data q (by decide)
    have h4 : List.dropWhile isWordC ('N' :: 'o' :: 'n' :: 'e' :: q) = q := by
      rw [show ('N' :: 'o' :: 'n' :: 'e' :: q) = "None".data ++ q from rfl,
        dropWhile_app isWordC _ q (by decide), hqd]
    rw [h1, h2]
    simp only [h3, hq, List.append_nil]
    rw [if_neg (by decide), if_neg (by decide), if_neg (by simp),
      if_pos (by decide), h4]
    simp

theorem claim_C8_witness :
    (rpGo 11 rpInit ("None".data ++ ":1".data) =
      ("null".data ++ (rpGo 10 rpInit ":1".data).1,
        ⟨.python_literal_converted, []⟩ :: (rpGo 10 rpInit ":1".data).2.1,
        (rpGo 10 rpInit ":1".data).2.2)) ∧
    (rpGo 11 rpInit (',' :: ("None".data ++ ":1".data)) =
      (',' :: (rpGo 10 rpInit ":1".data).1, (rpGo 10 rpInit ":1".data).2.1,
        (rpGo 10 rpInit ":1".data).2.2)) :=
  ⟨(claim_C8 rpInit ":1".data 10 rfl rfl (by decide)).1,
   (claim_C8 rpInit ":1".data 10 rfl rfl (by decide)).2.2.2⟩

end LlmJson
